import Mathlib

/-!
# Handler contract (chaincode CRUD over the ledger world state)

A shallow embedding of `handler-contract.go` together with the parts of the Go
standard library and of the ledger stub that its five operations call:

* Go strings and byte slices are lists of bytes (`GoString`), so a string need not be
  valid UTF-8;
* `unicode/utf8`: `DecodeRune`, `EncodeRune`, `ValidString`;
* `encoding/json`: `Marshal` and `Unmarshal` specialised to the `Handler` record, the
  encoder with its escaping of strings, the decoder with its syntax check and its
  rules for storing a JSON value into a struct with one string field;
* the stub interface `GetState` / `PutState` / `DelState`, and a key-value ledger
  implementing it in which any read, write or delete may be refused by the host;
* the operations `HandlerExists`, `CreateHandler`, `ReadHandler`, `UpdateHandler`,
  `DeleteHandler`, written against the stub interface: each takes the state of the
  stub and returns its Go results together with the state after the call.

Loops over strings carry a bound on their iterations as first argument; the lemmas
`appendStringLoop_fuel`, `unquoteLoop_fuel`, `parse_fuel` and their like show that the
bounds used are never reached.
-/

namespace HandlerContract

set_option maxRecDepth 8000

/-! ## Go values -/

/-- A Go `byte`. -/
abbrev Byte := Fin 256

/-- A Go `string` (equally a `[]byte`): an arbitrary sequence of bytes, by convention
but not necessarily UTF-8 text. -/
abbrev GoString := List Byte

/-- Conversion `byte(n)` of an integer to a byte (truncation to 8 bits). -/
def byte (n : Nat) : Byte := Fin.ofNat n

/-- A non-nil Go `error`, observed through its method `Error()`. -/
structure GoError where
  Error : GoString
deriving DecidableEq, Repr

/-! ## unicode/utf8 -/

/-- The constant `utf8.RuneError` (U+FFFD). -/
def RuneError : Nat := 0xFFFD

/-- `utf8.EncodeRune`: the UTF-8 encoding of rune `r`; runes out of range and surrogate
halves are encoded as `RuneError`. The masks and shifts of the Go code are written
arithmetically (`r>>6` is `r / 64`, `r&maskx` is `r % 64`, and `t2|x` is `0xC0 + x`
because `x` fits in the free low bits). -/
def EncodeRune (r : Nat) : List Byte :=
  if r ≤ 0x7F then [byte r]
  else if r ≤ 0x7FF then [byte (0xC0 + r / 64), byte (0x80 + r % 64)]
  else if r > 0x10FFFF ∨ (0xD800 ≤ r ∧ r ≤ 0xDFFF) then [0xEF, 0xBF, 0xBD]
  else if r ≤ 0xFFFF then
    [byte (0xE0 + r / 4096), byte (0x80 + r / 64 % 64), byte (0x80 + r % 64)]
  else
    [byte (0xF0 + r / 262144), byte (0x80 + r / 4096 % 64), byte (0x80 + r / 64 % 64),
      byte (0x80 + r % 64)]

/-- A Go string literal: the UTF-8 bytes of the text. -/
def str (s : String) : GoString := s.data.flatMap (fun c => EncodeRune c.toNat)

/-- The table `utf8.first` with `acceptRanges`: for a leading byte of a multi-byte
sequence, the length of the sequence and the admissible range of its second byte;
`none` for the bytes marked invalid (`xx`). -/
def first (p0 : Nat) : Option (Nat × Nat × Nat) :=
  if 0xC2 ≤ p0 ∧ p0 ≤ 0xDF then some (2, 0x80, 0xBF)
  else if p0 = 0xE0 then some (3, 0xA0, 0xBF)
  else if p0 = 0xED then some (3, 0x80, 0x9F)
  else if 0xE1 ≤ p0 ∧ p0 ≤ 0xEF then some (3, 0x80, 0xBF)
  else if p0 = 0xF0 then some (4, 0x90, 0xBF)
  else if 0xF1 ≤ p0 ∧ p0 ≤ 0xF3 then some (4, 0x80, 0xBF)
  else if p0 = 0xF4 then some (4, 0x80, 0x8F)
  else none

/-- `utf8.DecodeRune`: the first rune of `p` and its width in bytes; `(RuneError, 0)` on
empty input and `(RuneError, 1)` on an invalid encoding. -/
def DecodeRune : List Byte → Nat × Nat
  | [] => (RuneError, 0)
  | p0 :: rest =>
    if p0.val < 0x80 then (p0.val, 1)
    else match first p0.val with
      | none => (RuneError, 1)
      | some (sz, lo, hi) =>
        if rest.length + 1 < sz then (RuneError, 1)
        else match rest with
          | [] => (RuneError, 1)
          | b1 :: rest1 =>
            if b1.val < lo ∨ hi < b1.val then (RuneError, 1)
            else if sz ≤ 2 then (p0.val % 32 * 64 + b1.val % 64, 2)
            else match rest1 with
              | [] => (RuneError, 1)
              | b2 :: rest2 =>
                if b2.val < 0x80 ∨ 0xBF < b2.val then (RuneError, 1)
                else if sz ≤ 3 then
                  (p0.val % 16 * 4096 + b1.val % 64 * 64 + b2.val % 64, 3)
                else match rest2 with
                  | [] => (RuneError, 1)
                  | b3 :: _ =>
                    if b3.val < 0x80 ∨ 0xBF < b3.val then (RuneError, 1)
                    else
                      (p0.val % 8 * 262144 + b1.val % 64 * 4096 + b2.val % 64 * 64
                        + b3.val % 64, 4)

/-- The loop of `utf8.Valid`: every byte of the input belongs to a well-formed
encoding. The first argument bounds the number of iterations. -/
def ValidLoop : Nat → List Byte → Bool
  | _, [] => true
  | 0, _ :: _ => false
  | fuel + 1, b :: rest =>
    if b.val < 0x80 then ValidLoop fuel rest
    else
      let d := DecodeRune (b :: rest)
      if d.1 = RuneError ∧ d.2 = 1 then false
      else ValidLoop fuel (rest.drop (d.2 - 1))

/-- `utf8.ValidString`: the string consists entirely of valid UTF-8 encoded runes. -/
def ValidString (s : GoString) : Bool := ValidLoop s.length s

/-- The loop of the conversion `string([]rune(s))`: well-formed runes are kept and
every byte that starts no well-formed rune is replaced by the encoding of U+FFFD. The
first argument bounds the number of iterations. -/
def coerceLoop : Nat → GoString → GoString
  | _, [] => []
  | 0, _ :: _ => []
  | fuel + 1, b :: rest =>
    if b.val < 0x80 then b :: coerceLoop fuel rest
    else
      let d := DecodeRune (b :: rest)
      if d.1 = RuneError ∧ d.2 = 1 then [0xEF, 0xBF, 0xBD] ++ coerceLoop fuel rest
      else (b :: rest).take d.2 ++ coerceLoop fuel (rest.drop (d.2 - 1))

/-- The string coerced to well-formed UTF-8, `string([]rune(s))`. -/
def coerceUTF8 (s : GoString) : GoString := coerceLoop s.length s

/-! ## The asset record -/

/-- Modelled from the spec: the record type `Handler`, declared in a file of the
repository that is not among the sources. It has the single attribute `Value: string`,
serialised under the lowercase field name `value`. -/
structure Handler where
  Value : GoString
deriving DecidableEq, Repr

/-! ## encoding/json: Marshal -/

/-- The table `htmlSafeSet`: the ASCII bytes that a JSON string may hold unescaped when
HTML escaping is on (the default of `Marshal`): the printable bytes and DEL, without
the double quote, the backslash and the characters `&`, `<`, `>`. -/
def htmlSafeSet (b : Nat) : Bool :=
  decide (0x20 ≤ b) && decide (b < 0x80) && b != 0x22 && b != 0x26 && b != 0x3C
    && b != 0x3E && b != 0x5C

/-- The digit table `hex`, indexed by a value below 16. -/
def hex (n : Nat) : Byte := byte (if n < 10 then 0x30 + n else 0x57 + n)

/-- The escape sequence written for an ASCII byte outside `htmlSafeSet`. (Backspace and
form feed are written `\b` and `\f` as in current Go releases; older releases write
them `\u0008` and `\u000c`, which the decoder reads as the same bytes.) -/
def escapeByte (b : Nat) : List Byte :=
  if b = 0x5C ∨ b = 0x22 then [0x5C, byte b]
  else if b = 0x08 then [0x5C, 0x62]
  else if b = 0x0C then [0x5C, 0x66]
  else if b = 0x0A then [0x5C, 0x6E]
  else if b = 0x0D then [0x5C, 0x72]
  else if b = 0x09 then [0x5C, 0x74]
  else [0x5C, 0x75, 0x30, 0x30, hex (b / 16), hex (b % 16)]

/-- The loop of `appendString` with `escapeHTML` set: the text written between the
quotes for the remaining input. Safe ASCII and well-formed multi-byte runes are copied,
other ASCII bytes are escaped, a byte that starts no well-formed rune is written as
the escape of U+FFFD, and U+2028 / U+2029 are escaped. The first argument bounds the
number of iterations. -/
def appendStringLoop : Nat → GoString → List Byte
  | _, [] => []
  | 0, _ :: _ => []
  | fuel + 1, b :: rest =>
    if b.val < 0x80 then
      if htmlSafeSet b.val then b :: appendStringLoop fuel rest
      else escapeByte b.val ++ appendStringLoop fuel rest
    else
      let d := DecodeRune (b :: rest)
      if d.1 = RuneError ∧ d.2 = 1 then
        [0x5C, 0x75, 0x66, 0x66, 0x66, 0x64] ++ appendStringLoop fuel rest
      else if d.1 = 0x2028 ∨ d.1 = 0x2029 then
        [0x5C, 0x75, 0x32, 0x30, 0x32, hex (d.1 % 16)]
          ++ appendStringLoop fuel (rest.drop (d.2 - 1))
      else (b :: rest).take d.2 ++ appendStringLoop fuel (rest.drop (d.2 - 1))

/-- The function `appendString`: the JSON string literal for a Go string. -/
def appendString (src : GoString) : List Byte :=
  0x22 :: appendStringLoop src.length src ++ [0x22]

/-- `json.Marshal` of a `*Handler`: the object with the one member `value`. For this
record type the encoder cannot fail, so only the bytes are returned (the contract
discards the error result). -/
def Marshal (handler : Handler) : List Byte :=
  str "\x7b\"value\":" ++ appendString handler.Value ++ str "\x7d"

/-! ## encoding/json: Unmarshal -/

/-- The scanner predicate `isSpace`. -/
def isSpace (c : Nat) : Bool := c == 0x20 || c == 0x09 || c == 0x0D || c == 0x0A

/-- Skips the insignificant white space in front of a token. -/
def skipSpace : List Byte → List Byte
  | [] => []
  | c :: rest => if isSpace c.val then skipSpace rest else c :: rest

/-- A hexadecimal digit, as accepted by the scanner after a `\u`. -/
def isHexDigit (c : Nat) : Bool :=
  (decide (0x30 ≤ c) && decide (c ≤ 0x39)) || (decide (0x61 ≤ c) && decide (c ≤ 0x66))
    || (decide (0x41 ≤ c) && decide (c ≤ 0x46))

/-- The character after a backslash that the scanner accepts as a one-letter escape:
one of `b f n r t \ / "`. -/
def isSimpleEscape (c : Nat) : Bool :=
  c == 0x62 || c == 0x66 || c == 0x6E || c == 0x72 || c == 0x74 || c == 0x5C || c == 0x2F
    || c == 0x22

/-- The scanner states `stateInString`, `stateInStringEsc` and `stateInStringEscU*`,
started just after an opening quote: the raw text up to the closing quote, and the
input after that quote. Control characters and malformed escapes are rejected. -/
def scanString : List Byte → Option (List Byte × List Byte)
  | [] => none
  | c :: rest =>
    if c.val = 0x22 then some ([], rest)
    else if c.val = 0x5C then
      match rest with
      | [] => none
      | e :: rest1 =>
        if isSimpleEscape e.val then
          (scanString rest1).map (fun r => (c :: e :: r.1, r.2))
        else if e.val = 0x75 then
          match rest1 with
          | h1 :: h2 :: h3 :: h4 :: rest2 =>
            if isHexDigit h1.val && isHexDigit h2.val && isHexDigit h3.val
                && isHexDigit h4.val then
              (scanString rest2).map (fun r => (c :: e :: h1 :: h2 :: h3 :: h4 :: r.1, r.2))
            else none
          | _ => none
        else none
    else if c.val < 0x20 then none
    else (scanString rest).map (fun r => (c :: r.1, r.2))

/-- Skips a run of decimal digits. -/
def skipDigits : List Byte → List Byte
  | [] => []
  | c :: rest => if 0x30 ≤ c.val ∧ c.val ≤ 0x39 then skipDigits rest else c :: rest

/-- At least one decimal digit, then the rest of the run. -/
def digits1 : List Byte → Option (List Byte)
  | [] => none
  | c :: rest => if 0x30 ≤ c.val ∧ c.val ≤ 0x39 then some (skipDigits rest) else none

/-- The scanner states `stateE`, `stateESign`, `stateE0`, entered after `e` or `E`. -/
def scanExponent : List Byte → Option (List Byte)
  | [] => none
  | c :: rest => if c.val = 0x2B ∨ c.val = 0x2D then digits1 rest else digits1 (c :: rest)

/-- The scanner states `state0`, `stateDot`, `stateDot0`: what may follow the integer
part of a number. -/
def scanFraction : List Byte → Option (List Byte)
  | [] => some []
  | c :: rest =>
    if c.val = 0x2E then
      match digits1 rest with
      | none => none
      | some [] => some []
      | some (d :: rest1) =>
        if d.val = 0x65 ∨ d.val = 0x45 then scanExponent rest1 else some (d :: rest1)
    else if c.val = 0x65 ∨ c.val = 0x45 then scanExponent rest
    else some (c :: rest)

/-- The scanner states `state1` and `state0` entered on the first digit of a number. -/
def scanInteger : List Byte → Option (List Byte)
  | [] => none
  | c :: rest =>
    if c.val = 0x30 then scanFraction rest
    else if 0x31 ≤ c.val ∧ c.val ≤ 0x39 then scanFraction (skipDigits rest)
    else none

/-- A number literal, from its first character (a minus sign or a digit): the input
after it. -/
def scanNumber : List Byte → Option (List Byte)
  | [] => none
  | c :: rest => if c.val = 0x2D then scanInteger rest else scanInteger (c :: rest)

/-- The value of one hexadecimal digit in `getu4`. -/
def hexVal (c : Nat) : Option Nat :=
  if 0x30 ≤ c ∧ c ≤ 0x39 then some (c - 0x30)
  else if 0x61 ≤ c ∧ c ≤ 0x66 then some (c - 0x61 + 10)
  else if 0x41 ≤ c ∧ c ≤ 0x46 then some (c - 0x41 + 10)
  else none

/-- The function `getu4`: the 16-bit value of a `\uXXXX` escape at the start of the
text, `none` (the Go function returns -1) when there is none. -/
def getu4 : List Byte → Option Nat
  | c :: u :: h1 :: h2 :: h3 :: h4 :: _ =>
    if c.val = 0x5C ∧ u.val = 0x75 then
      match hexVal h1.val, hexVal h2.val, hexVal h3.val, hexVal h4.val with
      | some a, some b, some c, some d => some (((a * 16 + b) * 16 + c) * 16 + d)
      | _, _, _, _ => none
    else none
  | _ => none

/-- `utf16.IsSurrogate`. -/
def IsSurrogate (r : Nat) : Bool := decide (0xD800 ≤ r) && decide (r < 0xE000)

/-- `utf16.DecodeRune` applied to the results of two `getu4` calls: the rune of a
surrogate pair, U+FFFD when the two values are not a high and a low half. -/
def DecodeSurrogates (r1 : Nat) (r2 : Option Nat) : Nat :=
  match r2 with
  | some r2 =>
    if 0xD800 ≤ r1 ∧ r1 < 0xDC00 ∧ 0xDC00 ≤ r2 ∧ r2 < 0xE000 then
      (r1 - 0xD800) * 1024 + (r2 - 0xDC00) + 0x10000
    else 0xFFFD
  | none => 0xFFFD

/-- The first loop of `unquoteBytes`: the number of leading bytes that need no
unquoting (no backslash, quote, control character or malformed UTF-8). -/
def unquoteScan : Nat → List Byte → Nat
  | _, [] => 0
  | 0, _ :: _ => 0
  | fuel + 1, c :: rest =>
    if c.val = 0x5C ∨ c.val = 0x22 ∨ c.val < 0x20 then 0
    else if c.val < 0x80 then 1 + unquoteScan fuel rest
    else
      let d := DecodeRune (c :: rest)
      if d.1 = RuneError ∧ d.2 = 1 then 0
      else d.2 + unquoteScan fuel (rest.drop (d.2 - 1))

/-- One iteration of the second loop of `unquoteBytes`, at byte `c` followed by `rest`:
the bytes written and the number of bytes of `rest` consumed with `c`. Escapes are
resolved (a surrogate pair of `\u` escapes gives one rune, a lone half U+FFFD) and
other text is coerced to well-formed UTF-8. `none` when the text is not the inside of
a string literal. -/
def unquoteStep (c : Byte) (rest : List Byte) : Option (List Byte × Nat) :=
  if c.val = 0x5C then
    match rest with
    | [] => none
    | e :: _ =>
      if e.val = 0x22 ∨ e.val = 0x5C ∨ e.val = 0x2F ∨ e.val = 0x27 then some ([e], 1)
      else if e.val = 0x62 then some ([0x08], 1)
      else if e.val = 0x66 then some ([0x0C], 1)
      else if e.val = 0x6E then some ([0x0A], 1)
      else if e.val = 0x72 then some ([0x0D], 1)
      else if e.val = 0x74 then some ([0x09], 1)
      else if e.val = 0x75 then
        match getu4 (c :: rest) with
        | none => none
        | some rr =>
          if IsSurrogate rr then
            let dec := DecodeSurrogates rr (getu4 (rest.drop 5))
            if dec ≠ 0xFFFD then some (EncodeRune dec, 11)
            else some (EncodeRune 0xFFFD, 5)
          else some (EncodeRune rr, 5)
      else none
  else if c.val = 0x22 ∨ c.val < 0x20 then none
  else if c.val < 0x80 then some ([c], 0)
  else
    let d := DecodeRune (c :: rest)
    some (EncodeRune d.1, d.2 - 1)

/-- The second loop of `unquoteBytes`. The first argument bounds the number of
iterations. -/
def unquoteLoop : Nat → List Byte → Option (List Byte)
  | _, [] => some []
  | 0, _ :: _ => none
  | fuel + 1, c :: rest =>
    match unquoteStep c rest with
    | none => none
    | some (out, n) => (unquoteLoop fuel (rest.drop n)).map (fun t => out ++ t)

/-- The function `unquoteBytes`, applied to the text between the quotes of a string
literal: the string it denotes. -/
def unquoteBytes (s : List Byte) : Option (List Byte) :=
  let r := unquoteScan s.length s
  if r = s.length then some s
  else (unquoteLoop s.length (s.drop r)).map (fun t => s.take r ++ t)

/-- A JSON value as the decoder sees it. String values and object keys are held
unquoted; the digits of a number are not kept, since the record has no numeric
field. -/
inductive JValue where
  | null : JValue
  | bool (b : Bool) : JValue
  | number : JValue
  | string (s : GoString) : JValue
  | array (items : List JValue) : JValue
  | object (members : List (GoString × JValue)) : JValue

/-- The scanner constant `maxNestingDepth`: arrays and objects nested deeper than this
are a syntax error. -/
def maxNestingDepth : Nat := 10000

/-- A string literal from its opening quote on: the string it denotes and the input
after the closing quote. -/
def parseString (data : List Byte) : Option (GoString × List Byte) :=
  match scanString data with
  | none => none
  | some (raw, rest) =>
    match unquoteBytes raw with
    | none => none
    | some s => some (s, rest)

/-- Expects the given text at the start of the input (the tail of a literal name). -/
def expectBytes (lit data : List Byte) : Option (List Byte) :=
  if lit.isPrefixOf data then some (data.drop lit.length) else none

mutual
/-- The scanner state `stateBeginValue` and what follows it: one JSON value, with the
white space in front of it. The first argument bounds the recursion, the second is the
number of arrays and objects currently open. -/
def parseValue : Nat → Nat → List Byte → Option (JValue × List Byte)
  | 0, _, _ => none
  | fuel + 1, depth, data =>
    match skipSpace data with
    | [] => none
    | c :: rest =>
      if c.val = 0x7B then
        if maxNestingDepth < depth + 1 then none
        else match skipSpace rest with
          | [] => none
          | c1 :: rest1 =>
            if c1.val = 0x7D then some (JValue.object [], rest1)
            else (parseMembers fuel (depth + 1) (c1 :: rest1)).map
              (fun r => (JValue.object r.1, r.2))
      else if c.val = 0x5B then
        if maxNestingDepth < depth + 1 then none
        else match skipSpace rest with
          | [] => none
          | c1 :: rest1 =>
            if c1.val = 0x5D then some (JValue.array [], rest1)
            else (parseElements fuel (depth + 1) (c1 :: rest1)).map
              (fun r => (JValue.array r.1, r.2))
      else if c.val = 0x22 then
        (parseString rest).map (fun r => (JValue.string r.1, r.2))
      else if c.val = 0x2D ∨ (0x30 ≤ c.val ∧ c.val ≤ 0x39) then
        (scanNumber (c :: rest)).map (fun r => (JValue.number, r))
      else if c.val = 0x74 then
        (expectBytes [0x72, 0x75, 0x65] rest).map (fun r => (JValue.bool true, r))
      else if c.val = 0x66 then
        (expectBytes [0x61, 0x6C, 0x73, 0x65] rest).map (fun r => (JValue.bool false, r))
      else if c.val = 0x6E then
        (expectBytes [0x75, 0x6C, 0x6C] rest).map (fun r => (JValue.null, r))
      else none
/-- The members of a non-empty object, from a key on, up to and including the closing
brace. -/
def parseMembers : Nat → Nat → List Byte → Option (List (GoString × JValue) × List Byte)
  | 0, _, _ => none
  | fuel + 1, depth, data =>
    match skipSpace data with
    | [] => none
    | q :: rest =>
      if q.val = 0x22 then
        match parseString rest with
        | none => none
        | some (key, rest1) =>
          match skipSpace rest1 with
          | [] => none
          | c :: rest2 =>
            if c.val = 0x3A then
              match parseValue fuel depth rest2 with
              | none => none
              | some (v, rest3) =>
                match skipSpace rest3 with
                | [] => none
                | e :: rest4 =>
                  if e.val = 0x2C then
                    (parseMembers fuel depth rest4).map (fun r => ((key, v) :: r.1, r.2))
                  else if e.val = 0x7D then some ([(key, v)], rest4)
                  else none
            else none
      else none
/-- The elements of a non-empty array, up to and including the closing bracket. -/
def parseElements : Nat → Nat → List Byte → Option (List JValue × List Byte)
  | 0, _, _ => none
  | fuel + 1, depth, data =>
    match parseValue fuel depth data with
    | none => none
    | some (v, rest) =>
      match skipSpace rest with
      | [] => none
      | e :: rest1 =>
        if e.val = 0x2C then (parseElements fuel depth rest1).map (fun r => (v :: r.1, r.2))
        else if e.val = 0x5D then some ([v], rest1)
        else none
end

/-- The function `checkValid` together with the reading of the value: the input must be
exactly one JSON value surrounded by optional white space. `none` is a syntax error.
The bound given to `parseValue` is never reached: a value or an element list takes at
most two steps of the recursion for each byte it reads. -/
def parseDocument (data : List Byte) : Option JValue :=
  match parseValue (2 * data.length + 1) 0 data with
  | none => none
  | some (v, rest) => if skipSpace rest = [] then some v else none

/-- ASCII upper-casing of one byte, the folding under which the decoder compares an
object key with a field name when the exact name is not found. -/
def foldByte (c : Nat) : Nat := if 0x61 ≤ c ∧ c ≤ 0x7A then c - 0x20 else c

/-- The field lookup of the decoder for the record `Handler`: the key names the field
`value` exactly or up to the case of its letters. (No letter of `value` has a
non-ASCII case variant, so only ASCII keys match.) -/
def isValueField (key : GoString) : Bool :=
  key.map (fun b => foldByte b.val) == (str "value").map (fun b => foldByte b.val)

/-- The decoding of one JSON value into the string field `Value`: a string is stored,
`null` leaves the field as it is, anything else records an `UnmarshalTypeError`
(the flag) and leaves the field as it is. -/
def storeValue (v : JValue) (handler : Handler) : Handler × Bool :=
  match v with
  | JValue.string s => (Handler.mk s, false)
  | JValue.null => (handler, false)
  | _ => (handler, true)

/-- The decoding of the members of an object into the record, in order: members named
`value` are stored into the field, all others are skipped. The flag tells whether an
error was recorded. -/
def storeMembers : List (GoString × JValue) → Handler → Handler × Bool
  | [], handler => (handler, false)
  | (key, v) :: rest, handler =>
    if isValueField key then
      let r1 := storeValue v handler
      let r2 := storeMembers rest r1.1
      (r2.1, r1.2 || r2.2)
    else storeMembers rest handler

/-- The decoding of a whole JSON value into the record: an object is decoded member by
member, `null` is a no-op, every other value is an `UnmarshalTypeError`. -/
def storeDocument (v : JValue) (handler : Handler) : Handler × Bool :=
  match v with
  | JValue.object members => storeMembers members handler
  | JValue.null => (handler, false)
  | _ => (handler, true)

/-- `json.Unmarshal` of the bytes into a `*Handler`: the record after the call, and
whether the call returned an error (a syntax error, reported before anything is
stored, or a recorded type error). -/
def Unmarshal (data : List Byte) (handler : Handler) : Handler × Bool :=
  match parseDocument data with
  | none => (handler, true)
  | some v => storeDocument v handler

/-! ## The ledger stub interface -/

/-- The part of `shim.ChaincodeStubInterface` that the contract calls, over an
arbitrary type `σ` of stub states. Each accessor returns its Go results and the state
of the stub after the call. A `nil` byte slice is `none`. -/
structure ChaincodeStub (σ : Type) where
  GetState : GoString → σ → (Option (List Byte) × Option GoError) × σ
  PutState : GoString → List Byte → σ → Option GoError × σ
  DelState : GoString → σ → Option GoError × σ

/-- `fmt.Errorf` with a format of the shape `left %s right`: the error whose message is
the format with the operand substituted. -/
def Errorf (left operand right : GoString) : GoError :=
  GoError.mk (left ++ operand ++ right)

/-- The error built in the four operations when the existence check fails. -/
def readError (err : GoError) : GoError :=
  Errorf (str "Could not read from world state. ") err.Error []

/-- The error built by `CreateHandler` for an occupied key. -/
def alreadyExistsError (handlerID : GoString) : GoError :=
  Errorf (str "The asset ") handlerID (str " already exists")

/-- The error built by `ReadHandler`, `UpdateHandler` and `DeleteHandler` for a vacant
key. -/
def notFoundError (handlerID : GoString) : GoError :=
  Errorf (str "The asset ") handlerID (str " does not exist")

/-- The error built by `ReadHandler` when the stored bytes do not decode. -/
def unmarshalError : GoError :=
  GoError.mk (str "Could not unmarshal world state data to type Handler")

/-! ## The contract operations -/

section Contract

variable {σ : Type}

/-- `HandlerExists` returns true when asset with given ID exists in world state. -/
def HandlerExists (stub : ChaincodeStub σ) (handlerID : GoString) (s : σ) :
    (Bool × Option GoError) × σ :=
  let r := stub.GetState handlerID s
  match r.1.2 with
  | some err => ((false, some err), r.2)
  | none => ((r.1.1.isSome, none), r.2)

/-- `CreateHandler` creates a new instance of Handler. -/
def CreateHandler (stub : ChaincodeStub σ) (handlerID value : GoString) (s : σ) :
    Option GoError × σ :=
  let r := HandlerExists stub handlerID s
  match r.1.2 with
  | some err => (some (readError err), r.2)
  | none =>
    if r.1.1 then (some (alreadyExistsError handlerID), r.2)
    else
      let handler := Handler.mk value
      let bytes := Marshal handler
      stub.PutState handlerID bytes r.2

/-- `ReadHandler` retrieves an instance of Handler from the world state. -/
def ReadHandler (stub : ChaincodeStub σ) (handlerID : GoString) (s : σ) :
    (Option Handler × Option GoError) × σ :=
  let r := HandlerExists stub handlerID s
  match r.1.2 with
  | some err => ((none, some (readError err)), r.2)
  | none =>
    if !r.1.1 then ((none, some (notFoundError handlerID)), r.2)
    else
      let g := stub.GetState handlerID r.2
      let bytes := g.1.1.getD []
      let u := Unmarshal bytes (Handler.mk [])
      if u.2 then ((none, some unmarshalError), g.2)
      else ((some u.1, none), g.2)

/-- `UpdateHandler` retrieves an instance of Handler from the world state and updates
its value. -/
def UpdateHandler (stub : ChaincodeStub σ) (handlerID newValue : GoString) (s : σ) :
    Option GoError × σ :=
  let r := HandlerExists stub handlerID s
  match r.1.2 with
  | some err => (some (readError err), r.2)
  | none =>
    if !r.1.1 then (some (notFoundError handlerID), r.2)
    else
      let handler := Handler.mk newValue
      let bytes := Marshal handler
      stub.PutState handlerID bytes r.2

/-- `DeleteHandler` deletes an instance of Handler from the world state. -/
def DeleteHandler (stub : ChaincodeStub σ) (handlerID : GoString) (s : σ) :
    Option GoError × σ :=
  let r := HandlerExists stub handlerID s
  match r.1.2 with
  | some err => (some (readError err), r.2)
  | none =>
    if !r.1.1 then (some (notFoundError handlerID), r.2)
    else stub.DelState handlerID r.2

end Contract

/-! ## The world state -/

/-- One call on the stub, as the ledger records it. -/
inductive Call where
  | GetState (key : GoString) : Call
  | PutState (key : GoString) (value : List Byte) : Call
  | DelState (key : GoString) : Call
deriving DecidableEq, Repr

/-- The host's world state behind the stub, after the store accessor contract `get` /
`put` / `delete` of the design. It holds the current value of every key (`none` for a
vacant key), the reads, writes and deletes that the host refuses, each with the error it
answers, and the calls made so far, oldest first. The refusals are fixed for the life of
the store, so a read of a key gives the same answer until the key is written or deleted.
Every invocation of the contract is its own transaction: what it writes is what the
next invocation reads. -/
structure Ledger where
  world : GoString → Option (List Byte)
  getErr : GoString → Option GoError
  putErr : GoString → List Byte → Option GoError
  delErr : GoString → Option GoError
  calls : List Call

/-- The current value of `key` replaced by `value`. -/
def Ledger.set (s : Ledger) (key : GoString) (value : Option (List Byte)) :
    GoString → Option (List Byte) :=
  fun k => if k = key then value else s.world k

/-- The ledger with one more recorded call and the given values. -/
def Ledger.record (s : Ledger) (c : Call) (world : GoString → Option (List Byte)) :
    Ledger :=
  Ledger.mk world s.getErr s.putErr s.delErr (s.calls ++ [c])

/-- The stub over the key-value store. A read answers the refusal set for the key, else
the current value; a write or delete answers the refusal set for it and then changes
nothing, else changes the value of that one key. Every call is recorded. -/
def ledgerStub : ChaincodeStub Ledger where
  GetState := fun key s =>
    match s.getErr key with
    | some err => ((none, some err), s.record (Call.GetState key) s.world)
    | none => ((s.world key, none), s.record (Call.GetState key) s.world)
  PutState := fun key value s =>
    match s.putErr key value with
    | some err => (some err, s.record (Call.PutState key value) s.world)
    | none => (none, s.record (Call.PutState key value) (s.set key (some value)))
  DelState := fun key s =>
    match s.delErr key with
    | some err => (some err, s.record (Call.DelState key) s.world)
    | none => (none, s.record (Call.DelState key) (s.set key none))

/-- The writes and deletes among recorded calls. -/
def mutations (calls : List Call) : List Call :=
  calls.filter (fun c => match c with
    | Call.GetState _ => false
    | _ => true)

/-- The store in its initial state: every key vacant and no call made yet, under the
given refusals of the host. -/
def emptyLedger (getErr : GoString → Option GoError)
    (putErr : GoString → List Byte → Option GoError)
    (delErr : GoString → Option GoError) : Ledger :=
  Ledger.mk (fun _ => none) getErr putErr delErr []

/-- The refusal-free answers of a host whose accessor calls always succeed. -/
def noErr : GoString → Option GoError := fun _ => none

/-- The refusal-free answer to writes of a host whose accessor calls always succeed. -/
def noPutErr : GoString → List Byte → Option GoError := fun _ _ => none

/-! ## Histories of invocations -/

/-- One invocation of the contract: the operation and its arguments. -/
inductive Op where
  | Exists (handlerID : GoString) : Op
  | Create (handlerID value : GoString) : Op
  | Read (handlerID : GoString) : Op
  | Update (handlerID newValue : GoString) : Op
  | Delete (handlerID : GoString) : Op
deriving DecidableEq, Repr

/-- Runs one invocation on the stub: the error it returns (`none` when it succeeds) and
the state of the stub after it. -/
def invoke {σ : Type} (stub : ChaincodeStub σ) (op : Op) (s : σ) : Option GoError × σ :=
  match op with
  | Op.Exists k => ((HandlerExists stub k s).1.2, (HandlerExists stub k s).2)
  | Op.Create k v => CreateHandler stub k v s
  | Op.Read k => ((ReadHandler stub k s).1.2, (ReadHandler stub k s).2)
  | Op.Update k v => UpdateHandler stub k v s
  | Op.Delete k => DeleteHandler stub k s

/-- Runs a sequence of invocations one after the other: every invocation paired with
the error it returned, in order, and the final state of the stub. -/
def runAll {σ : Type} (stub : ChaincodeStub σ) : List Op → σ → List (Op × Option GoError) × σ
  | [], s => ([], s)
  | op :: ops, s =>
    ((op, (invoke stub op s).1) :: (runAll stub ops (invoke stub op s).2).1,
      (runAll stub ops (invoke stub op s).2).2)

/-- The key holds a value in the store and the store lets it be read. -/
def Ledger.holds (s : Ledger) (k : GoString) : Prop :=
  s.getErr k = none ∧ ∃ d, s.world k = some d

/-- No invocation of the history is a successful `DeleteHandler` on `k`. -/
def noDelete (k : GoString) (t : List (Op × Option GoError)) : Prop :=
  ∀ e ∈ t, e ≠ (Op.Delete k, none)

/-- Some invocation of the history is a successful `CreateHandler` on `k` after which
no `DeleteHandler` on `k` succeeds. -/
def keptCreate (k : GoString) (t : List (Op × Option GoError)) : Prop :=
  ∃ pre post v, t = pre ++ (Op.Create k v, none) :: post ∧ noDelete k post

/-! ## The world state of the test suite -/

/-- The world state that `configureStub` of the test file describes: reading `statebad`
fails with `world state get error`, `existingkey` holds the raw bytes `some value`,
`handlerkey` holds the encoding of the record with value `set value`, every other key
(such as `missingkey`) is vacant, and writes and deletes succeed. -/
def testLedger : Ledger where
  world := fun key =>
    if key = str "existingkey" then some (str "some value")
    else if key = str "handlerkey" then some (Marshal (Handler.mk (str "set value")))
    else none
  getErr := fun key =>
    if key = str "statebad" then some (GoError.mk (str "world state get error")) else none
  putErr := noPutErr
  delErr := noErr
  calls := []

/-! ## Reference definitions for the claims on histories and on the double read -/

/-- The effect of one invocation of a history on the value that the contract has
written for `k`: a successful `CreateHandler` or `UpdateHandler` on `k` makes it the
value passed, a successful `DeleteHandler` on `k` leaves none, and every other
invocation (a failed one, one on another key, a read) leaves it as it is. -/
def writtenStep (k : GoString) (acc : Option GoString) (e : Op × Option GoError) :
    Option GoString :=
  match e.2 with
  | some _ => acc
  | none =>
    match e.1 with
    | Op.Create k1 v => if k1 = k then some v else acc
    | Op.Update k1 v => if k1 = k then some v else acc
    | Op.Delete k1 => if k1 = k then none else acc
    | _ => acc

/-- The value passed to the last successful `CreateHandler` or `UpdateHandler` on `k`
in the history, `none` when there is none or a `DeleteHandler` on `k` succeeded after
it. -/
def lastWritten (k : GoString) (t : List (Op × Option GoError)) : Option GoString :=
  t.foldl (writtenStep k) none

/-- The single-read reference for `ReadHandler`, after the words of its contract: one
read of the key; `ReadFailure` (the wrapped error) when the read fails, `NotFound`
when it yields nil, `DecodeFailure` when the bytes do not decode, and otherwise the
decoded record. -/
def ReadHandlerSingle {σ : Type} (stub : ChaincodeStub σ) (handlerID : GoString) (s : σ) :
    Option Handler × Option GoError :=
  match (stub.GetState handlerID s).1 with
  | (_, some err) => (none, some (readError err))
  | (none, none) => (none, some (notFoundError handlerID))
  | (some bytes, none) =>
    if (Unmarshal bytes (Handler.mk [])).2 then (none, some unmarshalError)
    else (some (Unmarshal bytes (Handler.mk [])).1, none)

/-- A stub whose reads are not repeatable: its state counts the reads made; the first
read of any key answers the encoding of the record with value `set value`, and every
later read fails with `world state get error`. Writes and deletes succeed and change
nothing. -/
def flakyStub : ChaincodeStub Nat where
  GetState := fun _ n =>
    if n = 0 then ((some (Marshal (Handler.mk (str "set value"))), none), n + 1)
    else ((none, some (GoError.mk (str "world state get error"))), n + 1)
  PutState := fun _ _ n => (none, n)
  DelState := fun _ n => (none, n)

/-- The world state of the test suite under a host that refuses every write with `world
state put error` and every delete with `world state delete error`. -/
def refusingLedger : Ledger where
  world := testLedger.world
  getErr := testLedger.getErr
  putErr := fun _ _ => some (GoError.mk (str "world state put error"))
  delErr := fun _ => some (GoError.mk (str "world state delete error"))
  calls := []

/-! ## Shapes of stored bytes, read off the bytes themselves -/

theorem first_cases {x sz lo hi : Nat} (h : first x = some (sz, lo, hi)) :
    (sz = 2 ∧ 0xC2 ≤ x ∧ x ≤ 0xDF ∧ lo = 0x80 ∧ hi = 0xBF) ∨
    (sz = 3 ∧ x = 0xE0 ∧ lo = 0xA0 ∧ hi = 0xBF) ∨
    (sz = 3 ∧ x = 0xED ∧ lo = 0x80 ∧ hi = 0x9F) ∨
    (sz = 3 ∧ 0xE1 ≤ x ∧ x ≤ 0xEF ∧ x ≠ 0xED ∧ lo = 0x80 ∧ hi = 0xBF) ∨
    (sz = 4 ∧ x = 0xF0 ∧ lo = 0x90 ∧ hi = 0xBF) ∨
    (sz = 4 ∧ 0xF1 ≤ x ∧ x ≤ 0xF3 ∧ lo = 0x80 ∧ hi = 0xBF) ∨
    (sz = 4 ∧ x = 0xF4 ∧ lo = 0x80 ∧ hi = 0x8F) := by
  unfold first at h
  split_ifs at h <;> simp only [Option.some.injEq, Prod.mk.injEq, reduceCtorEq] at h <;>
    obtain ⟨rfl, rfl, rfl⟩ := h <;> omega

theorem byte_val_eq {n : Nat} (b : Byte) (h : n = b.val) : byte n = b := by
  subst h
  apply Fin.ext
  simp [byte, Fin.ofNat]

theorem EncodeRune_two (p0 b1 : Byte) (h0 : 0xC2 ≤ p0.val ∧ p0.val ≤ 0xDF)
    (h1 : 0x80 ≤ b1.val ∧ b1.val ≤ 0xBF) :
    EncodeRune (p0.val % 32 * 64 + b1.val % 64) = [p0, b1] := by
  unfold EncodeRune
  rw [if_neg (by omega), if_pos (by omega)]
  congr 1
  · exact byte_val_eq _ (by omega)
  · congr 1
    exact byte_val_eq _ (by omega)

theorem EncodeRune_three (p0 b1 b2 : Byte) (lo hi : Nat)
    (h0 : (p0.val = 0xE0 ∧ lo = 0xA0 ∧ hi = 0xBF) ∨ (p0.val = 0xED ∧ lo = 0x80 ∧ hi = 0x9F) ∨
      (0xE1 ≤ p0.val ∧ p0.val ≤ 0xEF ∧ p0.val ≠ 0xED ∧ lo = 0x80 ∧ hi = 0xBF))
    (h1 : lo ≤ b1.val ∧ b1.val ≤ hi) (h2 : 0x80 ≤ b2.val ∧ b2.val ≤ 0xBF) :
    EncodeRune (p0.val % 16 * 4096 + b1.val % 64 * 64 + b2.val % 64) = [p0, b1, b2] := by
  unfold EncodeRune
  rw [if_neg (by omega), if_neg (by omega), if_neg (by omega), if_pos (by omega)]
  congr 1
  · exact byte_val_eq _ (by omega)
  · congr 1
    · exact byte_val_eq _ (by omega)
    · congr 1
      exact byte_val_eq _ (by omega)

theorem EncodeRune_four (p0 b1 b2 b3 : Byte) (lo hi : Nat)
    (h0 : (p0.val = 0xF0 ∧ lo = 0x90 ∧ hi = 0xBF) ∨ (p0.val = 0xF4 ∧ lo = 0x80 ∧ hi = 0x8F) ∨
      (0xF1 ≤ p0.val ∧ p0.val ≤ 0xF3 ∧ lo = 0x80 ∧ hi = 0xBF))
    (h1 : lo ≤ b1.val ∧ b1.val ≤ hi) (h2 : 0x80 ≤ b2.val ∧ b2.val ≤ 0xBF)
    (h3 : 0x80 ≤ b3.val ∧ b3.val ≤ 0xBF) :
    EncodeRune (p0.val % 8 * 262144 + b1.val % 64 * 4096 + b2.val % 64 * 64 + b3.val % 64)
      = [p0, b1, b2, b3] := by
  unfold EncodeRune
  rw [if_neg (by omega), if_neg (by omega), if_neg (by omega), if_neg (by omega)]
  congr 1
  · exact byte_val_eq _ (by omega)
  · congr 1
    · exact byte_val_eq _ (by omega)
    · congr 1
      · exact byte_val_eq _ (by omega)
      · congr 1
        exact byte_val_eq _ (by omega)

theorem DecodeRune_two (b b1 : Byte) (q : List Byte) (lo hi : Nat) (hb : ¬ b.val < 0x80)
    (hf : first b.val = some (2, lo, hi)) (h1 : ¬ (b1.val < lo ∨ hi < b1.val)) :
    DecodeRune (b :: b1 :: q) = (b.val % 32 * 64 + b1.val % 64, 2) := by
  simp [DecodeRune, hb, hf, h1]

theorem DecodeRune_three (b b1 b2 : Byte) (q : List Byte) (lo hi : Nat) (hb : ¬ b.val < 0x80)
    (hf : first b.val = some (3, lo, hi)) (h1 : ¬ (b1.val < lo ∨ hi < b1.val))
    (h2 : ¬ (b2.val < 0x80 ∨ 0xBF < b2.val)) :
    DecodeRune (b :: b1 :: b2 :: q)
      = (b.val % 16 * 4096 + b1.val % 64 * 64 + b2.val % 64, 3) := by
  simp [DecodeRune, hb, hf, h1, h2]

theorem DecodeRune_four (b b1 b2 b3 : Byte) (q : List Byte) (lo hi : Nat)
    (hb : ¬ b.val < 0x80)
    (hf : first b.val = some (4, lo, hi)) (h1 : ¬ (b1.val < lo ∨ hi < b1.val))
    (h2 : ¬ (b2.val < 0x80 ∨ 0xBF < b2.val)) (h3 : ¬ (b3.val < 0x80 ∨ 0xBF < b3.val)) :
    DecodeRune (b :: b1 :: b2 :: b3 :: q)
      = (b.val % 8 * 262144 + b1.val % 64 * 4096 + b2.val % 64 * 64 + b3.val % 64, 4) := by
  simp [DecodeRune, hb, hf, h1, h2, h3]

theorem DecodeRune_invalid_or (b : Byte) (rest : List Byte) (hb : ¬ b.val < 0x80) :
    DecodeRune (b :: rest) = (RuneError, 1) ∨
    (∃ b1 q lo hi, rest = b1 :: q ∧ first b.val = some (2, lo, hi) ∧
      ¬ (b1.val < lo ∨ hi < b1.val)) ∨
    (∃ b1 b2 q lo hi, rest = b1 :: b2 :: q ∧ first b.val = some (3, lo, hi) ∧
      ¬ (b1.val < lo ∨ hi < b1.val) ∧ ¬ (b2.val < 0x80 ∨ 0xBF < b2.val)) ∨
    (∃ b1 b2 b3 q lo hi, rest = b1 :: b2 :: b3 :: q ∧ first b.val = some (4, lo, hi) ∧
      ¬ (b1.val < lo ∨ hi < b1.val) ∧ ¬ (b2.val < 0x80 ∨ 0xBF < b2.val) ∧
      ¬ (b3.val < 0x80 ∨ 0xBF < b3.val)) := by
  cases hf : first b.val with
  | none => left; simp [DecodeRune, hb, hf]
  | some t =>
    obtain ⟨sz, lo, hi⟩ := t
    have hsz : sz = 2 ∨ sz = 3 ∨ sz = 4 := by
      rcases first_cases hf with h | h | h | h | h | h | h <;> omega
    cases rest with
    | nil => left; simp [DecodeRune, hb, hf]
    | cons b1 rest1 =>
      by_cases h1 : b1.val < lo ∨ hi < b1.val
      · left; simp [DecodeRune, hb, hf, h1]
      rcases hsz with rfl | hsz
      · right; left; exact ⟨b1, rest1, lo, hi, rfl, rfl, h1⟩
      cases rest1 with
      | nil => left; rcases hsz with rfl | rfl <;> simp [DecodeRune, hb, hf, h1]
      | cons b2 rest2 =>
        by_cases h2 : b2.val < 0x80 ∨ 0xBF < b2.val
        · left; rcases hsz with rfl | rfl <;> simp [DecodeRune, hb, hf, h1, h2]
        rcases hsz with rfl | rfl
        · right; right; left; exact ⟨b1, b2, rest2, lo, hi, rfl, rfl, h1, h2⟩
        cases rest2 with
        | nil => left; simp [DecodeRune, hb, hf, h1, h2]
        | cons b3 rest3 =>
          by_cases h3 : b3.val < 0x80 ∨ 0xBF < b3.val
          · left; simp [DecodeRune, hb, hf, h1, h2, h3]
          right; right; right; exact ⟨b1, b2, b3, rest3, lo, hi, rfl, rfl, h1, h2, h3⟩

theorem DecodeRune_spec (b : Byte) (rest : List Byte) (hb : ¬ b.val < 0x80) :
    DecodeRune (b :: rest) = (RuneError, 1) ∨
    ∃ chunk tail, b :: rest = chunk ++ tail ∧ 2 ≤ chunk.length ∧
      (DecodeRune (b :: rest)).2 = chunk.length ∧
      EncodeRune (DecodeRune (b :: rest)).1 = chunk ∧
      (∀ x ∈ chunk, 0x80 ≤ x.val) ∧
      (∀ q, DecodeRune (chunk ++ q) = DecodeRune (b :: rest)) := by
  rcases DecodeRune_invalid_or b rest hb with h | ⟨b1, q, lo, hi, rfl, hf, h1⟩ |
      ⟨b1, b2, q, lo, hi, rfl, hf, h1, h2⟩ | ⟨b1, b2, b3, q, lo, hi, rfl, hf, h1, h2, h3⟩
  · exact Or.inl h
  · right
    have hc := first_cases hf
    refine ⟨[b, b1], q, rfl, by simp, ?_, ?_, ?_, ?_⟩
    · rw [DecodeRune_two b b1 q lo hi hb hf h1]; rfl
    · rw [DecodeRune_two b b1 q lo hi hb hf h1]
      exact EncodeRune_two b b1 (by omega) (by omega)
    · intro x hx
      simp only [List.mem_cons, List.mem_singleton, List.not_mem_nil, or_false] at hx
      rcases hx with rfl | rfl <;> omega
    · intro q2
      rw [DecodeRune_two b b1 q lo hi hb hf h1]
      exact DecodeRune_two b b1 q2 lo hi hb hf h1
  · right
    have hc := first_cases hf
    refine ⟨[b, b1, b2], q, rfl, by simp, ?_, ?_, ?_, ?_⟩
    · rw [DecodeRune_three b b1 b2 q lo hi hb hf h1 h2]; rfl
    · rw [DecodeRune_three b b1 b2 q lo hi hb hf h1 h2]
      exact EncodeRune_three b b1 b2 lo hi (by omega) (by omega) (by omega)
    · intro x hx
      simp only [List.mem_cons, List.mem_singleton, List.not_mem_nil, or_false] at hx
      rcases hx with rfl | rfl | rfl <;> omega
    · intro q2
      rw [DecodeRune_three b b1 b2 q lo hi hb hf h1 h2]
      exact DecodeRune_three b b1 b2 q2 lo hi hb hf h1 h2
  · right
    have hc := first_cases hf
    refine ⟨[b, b1, b2, b3], q, rfl, by simp, ?_, ?_, ?_, ?_⟩
    · rw [DecodeRune_four b b1 b2 b3 q lo hi hb hf h1 h2 h3]; rfl
    · rw [DecodeRune_four b b1 b2 b3 q lo hi hb hf h1 h2 h3]
      exact EncodeRune_four b b1 b2 b3 lo hi (by omega) (by omega) (by omega) (by omega)
    · intro x hx
      simp only [List.mem_cons, List.mem_singleton, List.not_mem_nil, or_false] at hx
      rcases hx with rfl | rfl | rfl | rfl <;> omega
    · intro q2
      rw [DecodeRune_four b b1 b2 b3 q lo hi hb hf h1 h2 h3]
      exact DecodeRune_four b b1 b2 b3 q2 lo hi hb hf h1 h2 h3
/-! ### The scanner accepts the strings the encoder writes -/

theorem hex_isHexDigit (n : Nat) (h : n < 16) : isHexDigit (hex n).val = true := by
  interval_cases n <;> decide

theorem hexVal_hex (n : Nat) (h : n < 16) : hexVal (hex n).val = some n := by
  interval_cases n <;> decide

theorem scanString_plain (c : Byte) (t : List Byte) (h1 : c.val ≠ 0x22) (h2 : c.val ≠ 0x5C)
    (h3 : ¬ c.val < 0x20) :
    scanString (c :: t) = (scanString t).map (fun r => (c :: r.1, r.2)) := by
  conv_lhs => rw [scanString.eq_def]
  simp only [if_neg h1, if_neg h2, if_neg h3]

theorem scanString_simple (c e : Byte) (t : List Byte) (h1 : c.val = 0x5C)
    (h2 : isSimpleEscape e.val = true) :
    scanString (c :: e :: t) = (scanString t).map (fun r => (c :: e :: r.1, r.2)) := by
  conv_lhs => rw [scanString.eq_def]
  simp [h1, h2]

theorem scanString_u (c e h1 h2 h3 h4 : Byte) (t : List Byte) (hc : c.val = 0x5C)
    (he : e.val = 0x75) (d1 : isHexDigit h1.val = true) (d2 : isHexDigit h2.val = true)
    (d3 : isHexDigit h3.val = true) (d4 : isHexDigit h4.val = true) :
    scanString (c :: e :: h1 :: h2 :: h3 :: h4 :: t)
      = (scanString t).map (fun r => (c :: e :: h1 :: h2 :: h3 :: h4 :: r.1, r.2)) := by
  conv_lhs => rw [scanString.eq_def]
  simp [hc, he, d1, d2, d3, d4, isSimpleEscape]

theorem scanString_high (chunk t : List Byte) (h : ∀ x ∈ chunk, 0x80 ≤ x.val) :
    scanString (chunk ++ t) = (scanString t).map (fun r => (chunk ++ r.1, r.2)) := by
  induction chunk with
  | nil => simp
  | cons c chunk ih =>
    have hc := h c (List.mem_cons_self _ _)
    rw [List.cons_append, scanString_plain c _ (by omega) (by omega) (by omega),
      ih (fun x hx => h x (List.mem_cons_of_mem _ hx))]
    cases scanString t <;> simp

theorem scanString_escape (b : Byte) (t : List Byte) (hb : b.val < 0x80) :
    scanString (escapeByte b.val ++ t)
      = (scanString t).map (fun r => (escapeByte b.val ++ r.1, r.2)) := by
  unfold escapeByte
  split_ifs with h1 h2 h3 h4 h5 h6
  · have : byte b.val = b := byte_val_eq b rfl
    rw [this]
    exact scanString_simple _ _ _ rfl (by rcases h1 with h | h <;> simp [isSimpleEscape, h])
  · exact scanString_simple _ _ _ rfl (by decide)
  · exact scanString_simple _ _ _ rfl (by decide)
  · exact scanString_simple _ _ _ rfl (by decide)
  · exact scanString_simple _ _ _ rfl (by decide)
  · exact scanString_simple _ _ _ rfl (by decide)
  · exact scanString_u _ _ _ _ _ _ _ rfl rfl (by decide) (by decide)
      (hex_isHexDigit _ (by omega)) (hex_isHexDigit _ (by omega))
theorem htmlSafeSet_plain {b : Nat} (h : htmlSafeSet b = true) :
    b ≠ 0x22 ∧ b ≠ 0x5C ∧ ¬ b < 0x20 ∧ b < 0x80 := by
  simp [htmlSafeSet] at h
  omega

theorem drop_pred_of_append (b : Byte) (rest chunk tail : List Byte)
    (h : b :: rest = chunk ++ tail) (hn : 2 ≤ chunk.length) :
    rest.drop (chunk.length - 1) = tail ∧ (b :: rest).take chunk.length = chunk ∧
      tail.length < rest.length := by
  have h1 : rest = (chunk ++ tail).tail := by rw [← h]; rfl
  cases chunk with
  | nil => simp at hn
  | cons c chunk =>
    simp only [List.cons_append, List.tail_cons] at h1
    subst h1
    simp only [List.cons_append, List.cons.injEq] at h
    simp only [List.length_cons] at hn
    refine ⟨by simp, ?_, by simp; omega⟩
    rw [h.1]
    simp

theorem scanString_quote (t : List Byte) : scanString (0x22 :: t) = some ([], t) := by
  conv_lhs => rw [scanString.eq_def]
  simp only []
  rw [if_pos (by decide)]

theorem scanString_appendStringLoop (fuel : Nat) :
    ∀ (src t : List Byte), src.length ≤ fuel →
      scanString (appendStringLoop fuel src ++ 0x22 :: t)
        = some (appendStringLoop fuel src, t) := by
  induction fuel with
  | zero =>
    intro src t h
    cases src with
    | nil => simp [appendStringLoop, scanString_quote]
    | cons b rest => simp at h
  | succ fuel ih =>
    intro src t h
    cases src with
    | nil => simp [appendStringLoop, scanString_quote]
    | cons b rest =>
      simp only [List.length_cons, Nat.add_le_add_iff_right] at h
      rw [appendStringLoop]
      by_cases hb : b.val < 0x80
      · rw [if_pos hb]
        by_cases hs : htmlSafeSet b.val = true
        · rw [if_pos hs]
          have hp := htmlSafeSet_plain hs
          rw [List.cons_append, scanString_plain b _ hp.1 hp.2.1 hp.2.2.1, ih rest t h]
          rfl
        · rw [if_neg hs, List.append_assoc, scanString_escape b _ hb, ih rest t h]
          rfl
      · rw [if_neg hb]
        simp only []
        rcases DecodeRune_spec b rest hb with hd | ⟨chunk, tail, hsplit, hlen, hsz, henc, hhigh, -⟩
        · rw [if_pos (by rw [hd]; exact ⟨rfl, rfl⟩), List.append_assoc]
          rw [show ([0x5C, 0x75, 0x66, 0x66, 0x66, 0x64] : List Byte) ++
              (appendStringLoop fuel rest ++ 0x22 :: t)
            = 0x5C :: 0x75 :: 0x66 :: 0x66 :: 0x66 :: 0x64 ::
              (appendStringLoop fuel rest ++ 0x22 :: t) from rfl]
          rw [scanString_u _ _ _ _ _ _ _ rfl rfl (by decide) (by decide) (by decide) (by decide),
            ih rest t h]
          rfl
        · have hd := drop_pred_of_append b rest chunk tail hsplit hlen
          have hne : ¬ ((DecodeRune (b :: rest)).1 = RuneError ∧ (DecodeRune (b :: rest)).2 = 1) := by
            rw [hsz]; omega
          rw [if_neg hne, hsz, hd.1, hd.2.1]
          have ht : tail.length ≤ fuel := by omega
          split_ifs with h28
          · rw [List.append_assoc]
            rw [show ([0x5C, 0x75, 0x32, 0x30, 0x32, hex ((DecodeRune (b :: rest)).1 % 16)] : List Byte) ++
                (appendStringLoop fuel tail ++ 0x22 :: t)
              = 0x5C :: 0x75 :: 0x32 :: 0x30 :: 0x32 :: hex ((DecodeRune (b :: rest)).1 % 16) ::
                (appendStringLoop fuel tail ++ 0x22 :: t) from rfl]
            rw [scanString_u _ _ _ _ _ _ _ rfl rfl (by decide) (by decide) (by decide)
              (hex_isHexDigit _ (by omega)), ih tail t ht]
            rfl
          · rw [List.append_assoc, scanString_high chunk _ hhigh, ih tail t ht]
            rfl
/-! ### Unquoting the strings the encoder writes -/

theorem unquoteLoop_cons (f : Nat) (c : Byte) (t : List Byte) :
    unquoteLoop (f + 1) (c :: t) =
      match unquoteStep c t with
      | none => none
      | some (out, n) => (unquoteLoop f (t.drop n)).map (fun r => out ++ r) := by
  rw [unquoteLoop]

theorem unquoteLoop_fuel (f1 : Nat) : ∀ (f2 : Nat) (s : List Byte),
    s.length ≤ f1 → s.length ≤ f2 → unquoteLoop f1 s = unquoteLoop f2 s := by
  induction f1 with
  | zero =>
    intro f2 s h1 _
    have : s = [] := List.length_eq_zero.mp (by omega)
    subst this
    cases f2 <;> simp [unquoteLoop]
  | succ f1 ih =>
    intro f2 s h1 h2
    cases s with
    | nil => cases f2 <;> simp [unquoteLoop]
    | cons c t =>
      cases f2 with
      | zero => simp at h2
      | succ f2 =>
        simp only [List.length_cons, Nat.add_le_add_iff_right] at h1 h2
        rw [unquoteLoop_cons, unquoteLoop_cons]
        cases unquoteStep c t with
        | none => rfl
        | some r =>
          obtain ⟨out, n⟩ := r
          simp only []
          rw [ih f2 (t.drop n) (by simp; omega) (by simp; omega)]

theorem unquoteStep_plain (c : Byte) (t : List Byte) (h1 : c.val ≠ 0x5C)
    (h2 : c.val ≠ 0x22) (h3 : ¬ c.val < 0x20) (h4 : c.val < 0x80) :
    unquoteStep c t = some ([c], 0) := by
  unfold unquoteStep
  rw [if_neg h1, if_neg (by omega), if_pos h4]

theorem unquoteStep_high (c : Byte) (t : List Byte) (h : ¬ c.val < 0x80) :
    unquoteStep c t
      = some (EncodeRune (DecodeRune (c :: t)).1, (DecodeRune (c :: t)).2 - 1) := by
  unfold unquoteStep
  rw [if_neg (by omega), if_neg (by omega), if_neg h]

theorem getu4_hex (c e h1 h2 h3 h4 : Byte) (t : List Byte) (a1 a2 a3 a4 : Nat)
    (hc : c.val = 0x5C) (he : e.val = 0x75)
    (v1 : hexVal h1.val = some a1) (v2 : hexVal h2.val = some a2)
    (v3 : hexVal h3.val = some a3) (v4 : hexVal h4.val = some a4) :
    getu4 (c :: e :: h1 :: h2 :: h3 :: h4 :: t) = some (((a1 * 16 + a2) * 16 + a3) * 16 + a4) := by
  simp [getu4, hc, he, v1, v2, v3, v4]

theorem unquoteStep_u (c e h1 h2 h3 h4 : Byte) (t : List Byte) (rr : Nat)
    (hc : c.val = 0x5C) (he : e.val = 0x75)
    (hg : getu4 (c :: e :: h1 :: h2 :: h3 :: h4 :: t) = some rr)
    (hs : IsSurrogate rr = false) :
    unquoteStep c (e :: h1 :: h2 :: h3 :: h4 :: t) = some (EncodeRune rr, 5) := by
  unfold unquoteStep
  simp only []
  rw [if_pos hc, if_neg (by omega), if_neg (by omega), if_neg (by omega), if_neg (by omega),
    if_neg (by omega), if_neg (by omega), if_pos he, hg]
  simp [hs]

theorem byte_of_val (b : Byte) (n : Nat) (hn : n < 256) (h : b.val = n) : b = byte n := by
  apply Fin.ext
  simp [byte, Fin.ofNat, h]
  omega

theorem unquoteLoop_escape (f : Nat) (b : Byte) (t : List Byte) (hb : b.val < 0x80) :
    unquoteLoop (f + 1) (escapeByte b.val ++ t) = (unquoteLoop f t).map (fun r => b :: r) := by
  unfold escapeByte
  split_ifs with h1 h2 h3 h4 h5 h6
  · have : byte b.val = b := byte_val_eq b rfl
    rw [this, List.cons_append, unquoteLoop_cons]
    have : unquoteStep 0x5C ([b] ++ t) = some ([b], 1) := by
      unfold unquoteStep
      simp only [List.singleton_append]
      rw [if_pos (show ((0x5C : Byte) : Nat) = 0x5C from rfl), if_pos (by omega)]
    rw [this]
    rfl
  · rw [byte_of_val b _ (by omega) h2]; rfl
  · rw [byte_of_val b _ (by omega) h3]; rfl
  · rw [byte_of_val b _ (by omega) h4]; rfl
  · rw [byte_of_val b _ (by omega) h5]; rfl
  · rw [byte_of_val b _ (by omega) h6]; rfl
  · have hg := getu4_hex 0x5C 0x75 0x30 0x30 (hex (b.val / 16)) (hex (b.val % 16)) t 0 0
      (b.val / 16) (b.val % 16) rfl rfl (by decide) (by decide)
      (hexVal_hex _ (by omega)) (hexVal_hex _ (by omega))
    have hv : ((0 * 16 + 0) * 16 + b.val / 16) * 16 + b.val % 16 = b.val := by omega
    rw [hv] at hg
    have hs : IsSurrogate b.val = false := by
      simp [IsSurrogate]; omega
    have hstep := unquoteStep_u _ _ _ _ _ _ t b.val rfl rfl hg hs
    have he : EncodeRune b.val = [b] := by
      unfold EncodeRune
      rw [if_pos (by omega), byte_val_eq b rfl]
    rw [he] at hstep
    show unquoteLoop (f + 1) (0x5C :: 0x75 :: 0x30 :: 0x30 :: hex (b.val / 16) :: hex (b.val % 16) :: t) = _
    rw [unquoteLoop_cons, hstep]
    rfl
theorem unquoteLoop_chunk (g : Nat) (c : Byte) (ch y out : List Byte)
    (h : unquoteStep c (ch ++ y) = some (out, ch.length)) :
    unquoteLoop (g + 1) (c :: (ch ++ y)) = (unquoteLoop g y).map (fun r => out ++ r) := by
  rw [unquoteLoop_cons, h]
  simp

theorem coerceLoop_cons (fuel : Nat) (b : Byte) (rest : List Byte) :
    coerceLoop (fuel + 1) (b :: rest) =
      if b.val < 0x80 then b :: coerceLoop fuel rest
      else
        if (DecodeRune (b :: rest)).1 = RuneError ∧ (DecodeRune (b :: rest)).2 = 1 then
          [0xEF, 0xBF, 0xBD] ++ coerceLoop fuel rest
        else (b :: rest).take (DecodeRune (b :: rest)).2
          ++ coerceLoop fuel (rest.drop ((DecodeRune (b :: rest)).2 - 1)) := by
  rw [coerceLoop]

theorem unquoteLoop_appendStringLoop (fuel : Nat) :
    ∀ (src : List Byte) (f2 : Nat), src.length ≤ fuel →
      (appendStringLoop fuel src).length ≤ f2 →
      unquoteLoop f2 (appendStringLoop fuel src) = some (coerceLoop fuel src) := by
  induction fuel with
  | zero =>
    intro src f2 h _
    have : src = [] := List.length_eq_zero.mp (by omega)
    subst this
    cases f2 <;> simp [appendStringLoop, unquoteLoop, coerceLoop]
  | succ fuel ih =>
    intro src f2 h hf
    cases src with
    | nil => cases f2 <;> simp [appendStringLoop, unquoteLoop, coerceLoop]
    | cons b rest =>
      simp only [List.length_cons, Nat.add_le_add_iff_right] at h
      rw [coerceLoop_cons]
      rw [appendStringLoop] at hf ⊢
      by_cases hb : b.val < 0x80
      · rw [if_pos hb] at hf ⊢
        rw [if_pos hb]
        by_cases hs : htmlSafeSet b.val = true
        · rw [if_pos hs] at hf ⊢
          have hp := htmlSafeSet_plain hs
          simp only [List.length_cons] at hf
          obtain ⟨g, rfl⟩ : ∃ g, f2 = g + 1 := ⟨f2 - 1, by omega⟩
          have := unquoteLoop_chunk g b [] (appendStringLoop fuel rest) [b]
            (unquoteStep_plain b _ hp.2.1 hp.1 hp.2.2.1 hp.2.2.2)
          rw [List.nil_append] at this
          rw [this, ih rest g h (by omega)]
          rfl
        · rw [if_neg hs] at hf ⊢
          have hl : 2 ≤ (escapeByte b.val).length := by
            unfold escapeByte; split_ifs <;> simp
          simp only [List.length_append] at hf
          obtain ⟨g, rfl⟩ : ∃ g, f2 = g + 1 := ⟨f2 - 1, by omega⟩
          rw [unquoteLoop_escape g b _ hb, ih rest g h (by omega)]
          rfl
      · rw [if_neg hb] at hf ⊢
        rw [if_neg hb]
        simp only [] at hf ⊢
        rcases DecodeRune_spec b rest hb with hd | ⟨chunk, tail, hsplit, hlen, hsz, henc, hhigh, hstab⟩
        · have hpos : (DecodeRune (b :: rest)).1 = RuneError ∧ (DecodeRune (b :: rest)).2 = 1 := by
            rw [hd]; exact ⟨rfl, rfl⟩
          rw [if_pos hpos] at hf ⊢
          rw [if_pos hpos]
          simp only [List.length_append, List.length_cons, List.length_nil] at hf
          obtain ⟨g, rfl⟩ : ∃ g, f2 = g + 1 := ⟨f2 - 1, by omega⟩
          have hg := getu4_hex 0x5C 0x75 0x66 0x66 0x66 0x64 (appendStringLoop fuel rest)
            15 15 15 13 rfl rfl (by decide) (by decide) (by decide) (by decide)
          have hstep := unquoteStep_u _ _ _ _ _ _ _ _ rfl rfl hg (by decide)
          have := unquoteLoop_chunk g 0x5C [0x75, 0x66, 0x66, 0x66, 0x64]
            (appendStringLoop fuel rest) _ hstep
          show unquoteLoop (g + 1) (0x5C :: ([0x75, 0x66, 0x66, 0x66, 0x64] ++ appendStringLoop fuel rest)) = _
          rw [this, ih rest g h (by omega)]
          rfl
        · have hd := drop_pred_of_append b rest chunk tail hsplit hlen
          have hne : ¬ ((DecodeRune (b :: rest)).1 = RuneError ∧ (DecodeRune (b :: rest)).2 = 1) := by
            rw [hsz]; omega
          rw [if_neg hne] at hf ⊢
          rw [if_neg hne]
          rw [hsz, hd.1, hd.2.1] at hf ⊢
          have ht : tail.length ≤ fuel := by omega
          split_ifs at hf ⊢ with h28
          · simp only [List.length_append, List.length_cons, List.length_nil] at hf
            obtain ⟨g, rfl⟩ : ∃ g, f2 = g + 1 := ⟨f2 - 1, by omega⟩
            have hg : getu4 (0x5C :: 0x75 :: 0x32 :: 0x30 :: 0x32 ::
                hex ((DecodeRune (b :: rest)).1 % 16) :: appendStringLoop fuel tail)
                = some (DecodeRune (b :: rest)).1 := by
              rcases h28 with h | h <;> rw [h]
              · exact getu4_hex 0x5C 0x75 0x32 0x30 0x32 (hex (0x2028 % 16)) _ 2 0 2 8 rfl rfl
                  (by decide) (by decide) (by decide) (by decide)
              · exact getu4_hex 0x5C 0x75 0x32 0x30 0x32 (hex (0x2029 % 16)) _ 2 0 2 9 rfl rfl
                  (by decide) (by decide) (by decide) (by decide)
            have hsur : IsSurrogate (DecodeRune (b :: rest)).1 = false := by
              rcases h28 with h | h <;> rw [h] <;> decide
            have hstep := unquoteStep_u _ _ _ _ _ _ _ _ rfl rfl hg hsur
            have := unquoteLoop_chunk g 0x5C [0x75, 0x32, 0x30, 0x32,
              hex ((DecodeRune (b :: rest)).1 % 16)] (appendStringLoop fuel tail) _ hstep
            show unquoteLoop (g + 1) (0x5C :: ([0x75, 0x32, 0x30, 0x32,
              hex ((DecodeRune (b :: rest)).1 % 16)] ++ appendStringLoop fuel tail)) = _
            rw [this, ih tail g ht (by omega), henc]
            rfl
          · simp only [List.length_append] at hf
            obtain ⟨g, rfl⟩ : ∃ g, f2 = g + 1 := ⟨f2 - 1, by omega⟩
            cases chunk with
            | nil => simp at hlen
            | cons c ch =>
              have hcb : c = b := by
                simp only [List.cons_append, List.cons.injEq] at hsplit
                exact hsplit.1.symm
              subst hcb
              have hstep := unquoteStep_high c (ch ++ appendStringLoop fuel tail) hb
              have hst := hstab (appendStringLoop fuel tail)
              rw [List.cons_append] at hst
              rw [hst, henc, hsz] at hstep
              simp only [List.length_cons, Nat.add_sub_cancel] at hstep
              rw [List.cons_append, unquoteLoop_chunk g c ch _ _ hstep,
                ih tail g ht (by simp at hf; omega)]
              rfl
theorem unquoteScan_cons (fuel : Nat) (c : Byte) (rest : List Byte) :
    unquoteScan (fuel + 1) (c :: rest) =
      if c.val = 0x5C ∨ c.val = 0x22 ∨ c.val < 0x20 then 0
      else if c.val < 0x80 then 1 + unquoteScan fuel rest
      else
        if (DecodeRune (c :: rest)).1 = RuneError ∧ (DecodeRune (c :: rest)).2 = 1 then 0
        else (DecodeRune (c :: rest)).2
          + unquoteScan fuel (rest.drop ((DecodeRune (c :: rest)).2 - 1)) := by
  rw [unquoteScan]

theorem unquoteLoop_unquoteScan (fuel : Nat) : ∀ (s : List Byte), s.length ≤ fuel →
    unquoteScan fuel s ≤ s.length ∧
    unquoteLoop fuel s = (unquoteLoop fuel (s.drop (unquoteScan fuel s))).map
      (fun t => s.take (unquoteScan fuel s) ++ t) := by
  induction fuel with
  | zero =>
    intro s h
    have : s = [] := List.length_eq_zero.mp (by omega)
    subst this
    simp [unquoteScan, unquoteLoop]
  | succ fuel ih =>
    intro s h
    cases s with
    | nil => simp [unquoteScan, unquoteLoop]
    | cons c rest =>
      simp only [List.length_cons, Nat.add_le_add_iff_right] at h
      rw [unquoteScan_cons]
      by_cases h0 : c.val = 0x5C ∨ c.val = 0x22 ∨ c.val < 0x20
      · rw [if_pos h0]
        refine ⟨Nat.zero_le _, ?_⟩
        simp
      rw [if_neg h0]
      by_cases hb : c.val < 0x80
      · rw [if_pos hb]
        obtain ⟨hle, heq⟩ := ih rest h
        refine ⟨by simp only [List.length_cons]; omega, ?_⟩
        have hstep := unquoteLoop_chunk fuel c [] rest [c]
          (unquoteStep_plain c _ (by omega) (by omega) (by omega) hb)
        rw [List.nil_append] at hstep
        rw [hstep, heq, Nat.add_comm 1, List.drop_succ_cons, List.take_succ_cons,
          unquoteLoop_fuel (fuel + 1) fuel _ (by simp; omega) (by simp; omega)]
        cases unquoteLoop fuel (List.drop (unquoteScan fuel rest) rest) <;> simp
      rw [if_neg hb]
      rcases DecodeRune_spec c rest hb with hd | ⟨chunk, tail, hsplit, hlen, hsz, henc, hhigh, hstab⟩
      · rw [if_pos (by rw [hd]; exact ⟨rfl, rfl⟩)]
        refine ⟨Nat.zero_le _, ?_⟩
        simp
      · have hd := drop_pred_of_append c rest chunk tail hsplit hlen
        rw [if_neg (by rw [hsz]; omega), hsz, hd.1]
        obtain ⟨hle, heq⟩ := ih tail (by omega)
        have hl : (c :: rest).length = chunk.length + tail.length := by
          rw [hsplit, List.length_append]
        refine ⟨by omega, ?_⟩
        have h1 : unquoteLoop (fuel + 1) (c :: rest)
            = (unquoteLoop fuel tail).map (fun r => chunk ++ r) := by
          rw [unquoteLoop_cons, unquoteStep_high c rest hb, hsz, henc]
          simp only []
          rw [hd.1]
        rw [h1, heq, hsplit, List.drop_append, List.take_append,
          unquoteLoop_fuel (fuel + 1) fuel _ (by simp; omega) (by simp; omega)]
        cases unquoteLoop fuel (List.drop (unquoteScan fuel tail) tail) <;> simp

theorem unquoteBytes_eq (s : List Byte) : unquoteBytes s = unquoteLoop s.length s := by
  obtain ⟨hle, heq⟩ := unquoteLoop_unquoteScan s.length s (Nat.le_refl _)
  unfold unquoteBytes
  simp only []
  split_ifs with hr
  · rw [heq, hr]
    simp [unquoteLoop]
  · exact heq.symm

theorem parseString_appendStringLoop (src t : List Byte) :
    parseString (appendStringLoop src.length src ++ 0x22 :: t)
      = some (coerceUTF8 src, t) := by
  unfold parseString
  rw [scanString_appendStringLoop _ src t (Nat.le_refl _)]
  simp only []
  rw [unquoteBytes_eq, unquoteLoop_appendStringLoop _ src _ (Nat.le_refl _) (Nat.le_refl _)]
  rfl
/-! ### Decoding the encoded record -/

theorem skipSpace_of_not_space (c : Byte) (t : List Byte) (h : isSpace c.val = false) :
    skipSpace (c :: t) = c :: t := by
  rw [skipSpace, h]; rfl

theorem parseString_value (t : List Byte) :
    parseString (0x76 :: 0x61 :: 0x6C :: 0x75 :: 0x65 :: 0x22 :: t) = some (str "value", t) := by
  have h := parseString_appendStringLoop (str "value") t
  have h1 : appendStringLoop (str "value").length (str "value")
      = [0x76, 0x61, 0x6C, 0x75, 0x65] := by decide
  have h2 : coerceUTF8 (str "value") = str "value" := by decide
  rw [h1, h2] at h
  exact h

theorem Marshal_eq (v : GoString) :
    Marshal (Handler.mk v) = 0x7B :: 0x22 :: 0x76 :: 0x61 :: 0x6C :: 0x75 :: 0x65 :: 0x22 :: 0x3A
      :: 0x22 :: (appendStringLoop v.length v ++ 0x22 :: [0x7D]) := by
  unfold Marshal appendString
  have h1 : str "\x7b\"value\":" = [0x7B, 0x22, 0x76, 0x61, 0x6C, 0x75, 0x65, 0x22, 0x3A] := by
    decide
  have h2 : str "\x7d" = [0x7D] := by decide
  rw [h1, h2]
  simp

theorem parseValue_Marshal (f : Nat) (v : GoString) :
    parseValue (f + 3) 0 (Marshal (Handler.mk v))
      = some (JValue.object [(str "value", JValue.string (coerceUTF8 v))], []) := by
  rw [Marshal_eq]
  rw [parseValue]
  rw [skipSpace_of_not_space _ _ (by decide)]
  simp only []
  rw [if_pos (show ((0x7B : Byte) : Nat) = 0x7B from rfl), if_neg (by decide),
    skipSpace_of_not_space _ _ (by decide)]
  simp only []
  rw [if_neg (by decide), parseMembers, skipSpace_of_not_space _ _ (by decide)]
  simp only []
  rw [if_pos (show ((0x22 : Byte) : Nat) = 0x22 from rfl), parseString_value]
  simp only []
  rw [skipSpace_of_not_space _ _ (by decide)]
  simp only []
  rw [if_pos (show ((0x3A : Byte) : Nat) = 0x3A from rfl), parseValue,
    skipSpace_of_not_space _ _ (by decide)]
  simp only []
  rw [if_neg (by decide), if_neg (by decide), if_pos (show ((0x22 : Byte) : Nat) = 0x22 from rfl),
    parseString_appendStringLoop]
  simp only [Option.map_some']
  rw [skipSpace_of_not_space _ _ (by decide)]
  simp only []
  rw [if_neg (by decide), if_pos (show ((0x7D : Byte) : Nat) = 0x7D from rfl)]
  rfl

theorem Unmarshal_Marshal (v : GoString) (handler : Handler) :
    Unmarshal (Marshal (Handler.mk v)) handler = (Handler.mk (coerceUTF8 v), false) := by
  unfold Unmarshal parseDocument
  have hl : 2 * (Marshal (Handler.mk v)).length + 1
      = (2 * (Marshal (Handler.mk v)).length - 2) + 3 := by
    rw [Marshal_eq]; simp
  rw [hl, parseValue_Marshal]
  simp only [skipSpace, if_true]
  have : isValueField (str "value") = true := by decide
  simp [storeDocument, storeMembers, storeValue, this]
/-! ### Valid strings and strings without escapes -/

theorem ValidLoop_cons (fuel : Nat) (b : Byte) (rest : List Byte) :
    ValidLoop (fuel + 1) (b :: rest) =
      if b.val < 0x80 then ValidLoop fuel rest
      else
        if (DecodeRune (b :: rest)).1 = RuneError ∧ (DecodeRune (b :: rest)).2 = 1 then false
        else ValidLoop fuel (rest.drop ((DecodeRune (b :: rest)).2 - 1)) := by
  rw [ValidLoop]

theorem coerceLoop_of_valid (fuel : Nat) : ∀ (s : List Byte), s.length ≤ fuel →
    ValidLoop fuel s = true → coerceLoop fuel s = s := by
  induction fuel with
  | zero =>
    intro s h _
    have : s = [] := List.length_eq_zero.mp (by omega)
    subst this
    rfl
  | succ fuel ih =>
    intro s h hv
    cases s with
    | nil => rfl
    | cons b rest =>
      simp only [List.length_cons, Nat.add_le_add_iff_right] at h
      rw [ValidLoop_cons] at hv
      rw [coerceLoop_cons]
      by_cases hb : b.val < 0x80
      · rw [if_pos hb] at hv ⊢
        rw [ih rest h hv]
      · rw [if_neg hb] at hv ⊢
        rcases DecodeRune_spec b rest hb with hd | ⟨chunk, tail, hsplit, hlen, hsz, -, -, -⟩
        · rw [if_pos (by rw [hd]; exact ⟨rfl, rfl⟩)] at hv
          exact absurd hv (by simp)
        · have hd := drop_pred_of_append b rest chunk tail hsplit hlen
          have hne : ¬ ((DecodeRune (b :: rest)).1 = RuneError ∧ (DecodeRune (b :: rest)).2 = 1) := by
            rw [hsz]; omega
          rw [if_neg hne, hsz, hd.1] at hv ⊢
          rw [hd.2.1, ih tail (by omega) hv]
          exact hsplit.symm

theorem coerceUTF8_of_valid (s : GoString) (h : ValidString s = true) : coerceUTF8 s = s :=
  coerceLoop_of_valid s.length s (Nat.le_refl _) h

theorem appendStringLoop_cons (fuel : Nat) (b : Byte) (rest : List Byte) :
    appendStringLoop (fuel + 1) (b :: rest) =
      if b.val < 0x80 then
        if htmlSafeSet b.val then b :: appendStringLoop fuel rest
        else escapeByte b.val ++ appendStringLoop fuel rest
      else
        if (DecodeRune (b :: rest)).1 = RuneError ∧ (DecodeRune (b :: rest)).2 = 1 then
          [0x5C, 0x75, 0x66, 0x66, 0x66, 0x64] ++ appendStringLoop fuel rest
        else if (DecodeRune (b :: rest)).1 = 0x2028 ∨ (DecodeRune (b :: rest)).1 = 0x2029 then
          [0x5C, 0x75, 0x32, 0x30, 0x32, hex ((DecodeRune (b :: rest)).1 % 16)]
            ++ appendStringLoop fuel (rest.drop ((DecodeRune (b :: rest)).2 - 1))
        else (b :: rest).take (DecodeRune (b :: rest)).2
          ++ appendStringLoop fuel (rest.drop ((DecodeRune (b :: rest)).2 - 1)) := by
  rw [appendStringLoop]

theorem appendStringLoop_plain (fuel : Nat) : ∀ (s : List Byte), s.length ≤ fuel →
    ValidLoop fuel s = true →
    (∀ b ∈ s, 0x20 ≤ b.val ∧ b.val ≠ 0x22 ∧ b.val ≠ 0x5C ∧ b.val ≠ 0x3C ∧ b.val ≠ 0x3E
      ∧ b.val ≠ 0x26) →
    ¬ List.IsInfix [0xE2, 0x80, 0xA8] s → ¬ List.IsInfix [0xE2, 0x80, 0xA9] s →
    appendStringLoop fuel s = s := by
  induction fuel with
  | zero =>
    intro s h _ _ _ _
    have : s = [] := List.length_eq_zero.mp (by omega)
    subst this
    rfl
  | succ fuel ih =>
    intro s h hv hp h28 h29
    cases s with
    | nil => rfl
    | cons b rest =>
      simp only [List.length_cons, Nat.add_le_add_iff_right] at h
      rw [ValidLoop_cons] at hv
      rw [appendStringLoop_cons]
      have hrest : ∀ x ∈ rest, 0x20 ≤ x.val ∧ x.val ≠ 0x22 ∧ x.val ≠ 0x5C ∧ x.val ≠ 0x3C
          ∧ x.val ≠ 0x3E ∧ x.val ≠ 0x26 := fun x hx => hp x (List.mem_cons_of_mem _ hx)
      by_cases hb : b.val < 0x80
      · rw [if_pos hb] at hv ⊢
        have hsafe : htmlSafeSet b.val = true := by
          have := hp b (List.mem_cons_self _ _)
          simp [htmlSafeSet]
          omega
        rw [if_pos hsafe, ih rest h hv hrest
          (fun hi => h28 (hi.trans (List.suffix_cons b rest).isInfix))
          (fun hi => h29 (hi.trans (List.suffix_cons b rest).isInfix))]
      · rw [if_neg hb] at hv ⊢
        rcases DecodeRune_spec b rest hb with hd | ⟨chunk, tail, hsplit, hlen, hsz, henc, -, -⟩
        · rw [if_pos (by rw [hd]; exact ⟨rfl, rfl⟩)] at hv
          exact absurd hv (by simp)
        · have hd := drop_pred_of_append b rest chunk tail hsplit hlen
          have hne : ¬ ((DecodeRune (b :: rest)).1 = RuneError ∧ (DecodeRune (b :: rest)).2 = 1) := by
            rw [hsz]; omega
          have hin : List.IsInfix chunk (b :: rest) := by
            rw [hsplit]; exact (List.prefix_append chunk tail).isInfix
          have hsuf : List.IsSuffix tail (b :: rest) := by
            rw [hsplit]; exact List.suffix_append chunk tail
          have hno : ¬ ((DecodeRune (b :: rest)).1 = 0x2028 ∨ (DecodeRune (b :: rest)).1 = 0x2029) := by
            intro h
            rcases h with h | h <;> rw [h] at henc
            · exact h28 (by rw [show ([0xE2, 0x80, 0xA8] : List Byte) = chunk from henc]; exact hin)
            · exact h29 (by rw [show ([0xE2, 0x80, 0xA9] : List Byte) = chunk from henc]; exact hin)
          rw [if_neg hne, hsz, hd.1] at hv ⊢
          rw [if_neg hno, hd.2.1, ih tail (by omega) hv
            (fun x hx => hp x (hsuf.subset hx))
            (fun hi => h28 (hi.trans hsuf.isInfix))
            (fun hi => h29 (hi.trans hsuf.isInfix))]
          exact hsplit.symm
/-! ### The operations on the key-value ledger -/

theorem getState_ok {s : Ledger} {k : GoString} {x : Option (List Byte)}
    (h : (ledgerStub.GetState k s).1 = (x, none)) : s.getErr k = none ∧ s.world k = x := by
  simp only [ledgerStub] at h
  cases hg : s.getErr k with
  | none => rw [hg] at h; simp at h; exact ⟨rfl, h⟩
  | some e => rw [hg] at h; simp at h

theorem getState_err {s : Ledger} {k : GoString} {e : GoError}
    (h : (ledgerStub.GetState k s).1.2 = some e) : s.getErr k = some e := by
  simp only [ledgerStub] at h
  cases hg : s.getErr k with
  | none => rw [hg] at h; simp at h
  | some e1 => rw [hg] at h; simpa using h

theorem HandlerExists_ledger_ok {s : Ledger} {k : GoString} (h : s.getErr k = none) :
    HandlerExists ledgerStub k s
      = (((s.world k).isSome, none), s.record (Call.GetState k) s.world) := by
  simp [HandlerExists, ledgerStub, h]

theorem HandlerExists_ledger_err {s : Ledger} {k : GoString} {e : GoError}
    (h : s.getErr k = some e) :
    HandlerExists ledgerStub k s = ((false, some e), s.record (Call.GetState k) s.world) := by
  simp [HandlerExists, ledgerStub, h]

theorem CreateHandler_ledger_vacant {s : Ledger} {k : GoString} (v : GoString)
    (h1 : s.getErr k = none) (h2 : s.world k = none) :
    CreateHandler ledgerStub k v s
      = ledgerStub.PutState k (Marshal (Handler.mk v)) (s.record (Call.GetState k) s.world) := by
  simp [CreateHandler, HandlerExists_ledger_ok h1, h2]

theorem CreateHandler_ledger_present {s : Ledger} {k : GoString} (v : GoString)
    {d : List Byte} (h1 : s.getErr k = none) (h2 : s.world k = some d) :
    CreateHandler ledgerStub k v s
      = (some (alreadyExistsError k), s.record (Call.GetState k) s.world) := by
  simp [CreateHandler, HandlerExists_ledger_ok h1, h2]

theorem CreateHandler_ledger_err {s : Ledger} {k : GoString} (v : GoString) {e : GoError}
    (h : s.getErr k = some e) :
    CreateHandler ledgerStub k v s
      = (some (readError e), s.record (Call.GetState k) s.world) := by
  simp [CreateHandler, HandlerExists_ledger_err h]

theorem ReadHandler_ledger_present {s : Ledger} {k : GoString} {d : List Byte}
    (h1 : s.getErr k = none) (h2 : s.world k = some d) :
    ReadHandler ledgerStub k s
      = (if (Unmarshal d (Handler.mk [])).2 then (none, some unmarshalError)
          else (some (Unmarshal d (Handler.mk [])).1, none),
         (s.record (Call.GetState k) s.world).record (Call.GetState k) s.world) := by
  have h3 : (s.record (Call.GetState k) s.world).getErr k = none := h1
  simp only [ReadHandler, HandlerExists_ledger_ok h1, h2]
  simp only [ledgerStub, h3]
  simp only [Ledger.record, h2]
  split_ifs <;> simp_all

theorem ReadHandler_ledger_vacant {s : Ledger} {k : GoString}
    (h1 : s.getErr k = none) (h2 : s.world k = none) :
    ReadHandler ledgerStub k s
      = ((none, some (notFoundError k)), s.record (Call.GetState k) s.world) := by
  simp [ReadHandler, HandlerExists_ledger_ok h1, h2]

theorem ReadHandler_ledger_err {s : Ledger} {k : GoString} {e : GoError}
    (h : s.getErr k = some e) :
    ReadHandler ledgerStub k s
      = ((none, some (readError e)), s.record (Call.GetState k) s.world) := by
  simp [ReadHandler, HandlerExists_ledger_err h]

theorem UpdateHandler_ledger_present {s : Ledger} {k : GoString} (v : GoString)
    {d : List Byte} (h1 : s.getErr k = none) (h2 : s.world k = some d) :
    UpdateHandler ledgerStub k v s
      = ledgerStub.PutState k (Marshal (Handler.mk v)) (s.record (Call.GetState k) s.world) := by
  simp [UpdateHandler, HandlerExists_ledger_ok h1, h2]

theorem UpdateHandler_ledger_vacant {s : Ledger} {k : GoString} (v : GoString)
    (h1 : s.getErr k = none) (h2 : s.world k = none) :
    UpdateHandler ledgerStub k v s
      = (some (notFoundError k), s.record (Call.GetState k) s.world) := by
  simp [UpdateHandler, HandlerExists_ledger_ok h1, h2]

theorem UpdateHandler_ledger_err {s : Ledger} {k : GoString} (v : GoString) {e : GoError}
    (h : s.getErr k = some e) :
    UpdateHandler ledgerStub k v s
      = (some (readError e), s.record (Call.GetState k) s.world) := by
  simp [UpdateHandler, HandlerExists_ledger_err h]

theorem DeleteHandler_ledger_present {s : Ledger} {k : GoString}
    {d : List Byte} (h1 : s.getErr k = none) (h2 : s.world k = some d) :
    DeleteHandler ledgerStub k s
      = ledgerStub.DelState k (s.record (Call.GetState k) s.world) := by
  simp [DeleteHandler, HandlerExists_ledger_ok h1, h2]

theorem DeleteHandler_ledger_vacant {s : Ledger} {k : GoString}
    (h1 : s.getErr k = none) (h2 : s.world k = none) :
    DeleteHandler ledgerStub k s
      = (some (notFoundError k), s.record (Call.GetState k) s.world) := by
  simp [DeleteHandler, HandlerExists_ledger_ok h1, h2]

theorem DeleteHandler_ledger_err {s : Ledger} {k : GoString} {e : GoError}
    (h : s.getErr k = some e) :
    DeleteHandler ledgerStub k s
      = (some (readError e), s.record (Call.GetState k) s.world) := by
  simp [DeleteHandler, HandlerExists_ledger_err h]

theorem PutState_ledger_ok {s : Ledger} {k : GoString} {d : List Byte}
    (h : (ledgerStub.PutState k d s).1 = none) :
    ledgerStub.PutState k d s = (none, s.record (Call.PutState k d) (s.set k (some d))) := by
  simp only [ledgerStub] at h ⊢
  cases hp : s.putErr k d with
  | none => rfl
  | some e => rw [hp] at h; simp at h

theorem DelState_ledger_ok {s : Ledger} {k : GoString}
    (h : (ledgerStub.DelState k s).1 = none) :
    ledgerStub.DelState k s = (none, s.record (Call.DelState k) (s.set k none)) := by
  simp only [ledgerStub] at h ⊢
  cases hp : s.delErr k with
  | none => rfl
  | some e => rw [hp] at h; simp at h

/-! ### The effect of each operation on the world state -/

theorem PutState_ledger_cases (s : Ledger) (k : GoString) (d : List Byte) :
    ((ledgerStub.PutState k d s).1 ≠ none ∧ (ledgerStub.PutState k d s).2.world = s.world ∧
      (ledgerStub.PutState k d s).2.getErr = s.getErr) ∨
    ((ledgerStub.PutState k d s).1 = none ∧
      (ledgerStub.PutState k d s).2.world = s.set k (some d) ∧
      (ledgerStub.PutState k d s).2.getErr = s.getErr) := by
  simp only [ledgerStub]
  cases s.putErr k d with
  | none => right; exact ⟨rfl, rfl, rfl⟩
  | some e => left; exact ⟨by simp, rfl, rfl⟩

theorem DelState_ledger_cases (s : Ledger) (k : GoString) :
    ((ledgerStub.DelState k s).1 ≠ none ∧ (ledgerStub.DelState k s).2.world = s.world ∧
      (ledgerStub.DelState k s).2.getErr = s.getErr) ∨
    ((ledgerStub.DelState k s).1 = none ∧
      (ledgerStub.DelState k s).2.world = s.set k none ∧
      (ledgerStub.DelState k s).2.getErr = s.getErr) := by
  simp only [ledgerStub]
  cases s.delErr k with
  | none => right; exact ⟨rfl, rfl, rfl⟩
  | some e => left; exact ⟨by simp, rfl, rfl⟩

theorem CreateHandler_ledger_cases (s : Ledger) (k v : GoString) :
    ((CreateHandler ledgerStub k v s).1 ≠ none ∧
      (CreateHandler ledgerStub k v s).2.world = s.world ∧
      (CreateHandler ledgerStub k v s).2.getErr = s.getErr) ∨
    ((CreateHandler ledgerStub k v s).1 = none ∧ s.getErr k = none ∧ s.world k = none ∧
      (CreateHandler ledgerStub k v s).2.world = s.set k (some (Marshal (Handler.mk v))) ∧
      (CreateHandler ledgerStub k v s).2.getErr = s.getErr) := by
  cases hg : s.getErr k with
  | some e => left; rw [CreateHandler_ledger_err v hg]; exact ⟨by simp, rfl, rfl⟩
  | none =>
    cases hw : s.world k with
    | some d => left; rw [CreateHandler_ledger_present v hg hw]; exact ⟨by simp, rfl, rfl⟩
    | none =>
      rw [CreateHandler_ledger_vacant v hg hw]
      rcases PutState_ledger_cases (s.record (Call.GetState k) s.world) k
        (Marshal (Handler.mk v)) with h | h
      · left; exact h
      · right; exact ⟨h.1, rfl, rfl, h.2.1, h.2.2⟩

theorem UpdateHandler_ledger_cases (s : Ledger) (k v : GoString) :
    ((UpdateHandler ledgerStub k v s).1 ≠ none ∧
      (UpdateHandler ledgerStub k v s).2.world = s.world ∧
      (UpdateHandler ledgerStub k v s).2.getErr = s.getErr) ∨
    ((UpdateHandler ledgerStub k v s).1 = none ∧ s.getErr k = none ∧
      (∃ d, s.world k = some d) ∧
      (UpdateHandler ledgerStub k v s).2.world = s.set k (some (Marshal (Handler.mk v))) ∧
      (UpdateHandler ledgerStub k v s).2.getErr = s.getErr) := by
  cases hg : s.getErr k with
  | some e => left; rw [UpdateHandler_ledger_err v hg]; exact ⟨by simp, rfl, rfl⟩
  | none =>
    cases hw : s.world k with
    | none => left; rw [UpdateHandler_ledger_vacant v hg hw]; exact ⟨by simp, rfl, rfl⟩
    | some d =>
      rw [UpdateHandler_ledger_present v hg hw]
      rcases PutState_ledger_cases (s.record (Call.GetState k) s.world) k
        (Marshal (Handler.mk v)) with h | h
      · left; exact h
      · right; exact ⟨h.1, rfl, ⟨d, rfl⟩, h.2.1, h.2.2⟩

theorem DeleteHandler_ledger_cases (s : Ledger) (k : GoString) :
    ((DeleteHandler ledgerStub k s).1 ≠ none ∧
      (DeleteHandler ledgerStub k s).2.world = s.world ∧
      (DeleteHandler ledgerStub k s).2.getErr = s.getErr) ∨
    ((DeleteHandler ledgerStub k s).1 = none ∧ s.getErr k = none ∧
      (∃ d, s.world k = some d) ∧
      (DeleteHandler ledgerStub k s).2.world = s.set k none ∧
      (DeleteHandler ledgerStub k s).2.getErr = s.getErr) := by
  cases hg : s.getErr k with
  | some e => left; rw [DeleteHandler_ledger_err hg]; exact ⟨by simp, rfl, rfl⟩
  | none =>
    cases hw : s.world k with
    | none => left; rw [DeleteHandler_ledger_vacant hg hw]; exact ⟨by simp, rfl, rfl⟩
    | some d =>
      rw [DeleteHandler_ledger_present hg hw]
      rcases DelState_ledger_cases (s.record (Call.GetState k) s.world) k with h | h
      · left; exact h
      · right; exact ⟨h.1, rfl, ⟨d, rfl⟩, h.2.1, h.2.2⟩

theorem HandlerExists_ledger_frame (s : Ledger) (k : GoString) :
    (HandlerExists ledgerStub k s).2.world = s.world ∧
    (HandlerExists ledgerStub k s).2.getErr = s.getErr := by
  cases hg : s.getErr k with
  | some e => rw [HandlerExists_ledger_err hg]; exact ⟨rfl, rfl⟩
  | none => rw [HandlerExists_ledger_ok hg]; exact ⟨rfl, rfl⟩

theorem ReadHandler_ledger_frame (s : Ledger) (k : GoString) :
    (ReadHandler ledgerStub k s).2.world = s.world ∧
    (ReadHandler ledgerStub k s).2.getErr = s.getErr := by
  cases hg : s.getErr k with
  | some e => rw [ReadHandler_ledger_err hg]; exact ⟨rfl, rfl⟩
  | none =>
    cases hw : s.world k with
    | none => rw [ReadHandler_ledger_vacant hg hw]; exact ⟨rfl, rfl⟩
    | some d => rw [ReadHandler_ledger_present hg hw]; exact ⟨rfl, rfl⟩

theorem HandlerExists_ledger_true (s : Ledger) (k : GoString) :
    (HandlerExists ledgerStub k s).1 = (true, none)
      ↔ s.getErr k = none ∧ ∃ d, s.world k = some d := by
  cases hg : s.getErr k with
  | some e => rw [HandlerExists_ledger_err hg]; simp
  | none =>
    rw [HandlerExists_ledger_ok hg]
    cases s.world k <;> simp

/-! ### Histories -/

theorem keptCreate_cons (k : GoString) (e : Op × Option GoError)
    (t : List (Op × Option GoError)) :
    keptCreate k (e :: t) ↔ ((∃ v, e = (Op.Create k v, none)) ∧ noDelete k t) ∨ keptCreate k t := by
  constructor
  · rintro ⟨pre, post, v, heq, hnd⟩
    cases pre with
    | nil =>
      simp only [List.nil_append, List.cons.injEq] at heq
      left
      exact ⟨⟨v, heq.1⟩, heq.2 ▸ hnd⟩
    | cons p pre =>
      simp only [List.cons_append, List.cons.injEq] at heq
      right
      exact ⟨pre, post, v, heq.2, hnd⟩
  · rintro (⟨⟨v, rfl⟩, hnd⟩ | ⟨pre, post, v, heq, hnd⟩)
    · exact ⟨[], t, v, rfl, hnd⟩
    · exact ⟨e :: pre, post, v, by rw [heq]; rfl, hnd⟩

theorem noDelete_cons (k : GoString) (e : Op × Option GoError)
    (t : List (Op × Option GoError)) :
    noDelete k (e :: t) ↔ e ≠ (Op.Delete k, none) ∧ noDelete k t := by
  simp [noDelete]

theorem holds_of_eq {s s1 : Ledger} {k : GoString} (hw : s1.world = s.world)
    (hg : s1.getErr = s.getErr) : s1.holds k ↔ s.holds k := by
  simp [Ledger.holds, hw, hg]

theorem holds_set {s s1 : Ledger} {k k1 : GoString} {x : Option (List Byte)}
    (hw : s1.world = s.set k1 x) (hg : s1.getErr = s.getErr) :
    s1.holds k ↔ (if k = k1 then s.getErr k = none ∧ ∃ d, x = some d else s.holds k) := by
  simp only [Ledger.holds, hw, hg, Ledger.set]
  split_ifs <;> rfl

theorem invoke_holds (s : Ledger) (op : Op) (k : GoString) :
    ((∃ v, (op, (invoke ledgerStub op s).1) = (Op.Create k v, none)) →
      (invoke ledgerStub op s).2.holds k) ∧
    ((op, (invoke ledgerStub op s).1) = (Op.Delete k, none) →
      ¬ (invoke ledgerStub op s).2.holds k) ∧
    ((¬ ∃ v, (op, (invoke ledgerStub op s).1) = (Op.Create k v, none)) →
      (op, (invoke ledgerStub op s).1) ≠ (Op.Delete k, none) →
      ((invoke ledgerStub op s).2.holds k ↔ s.holds k)) := by
  cases op with
  | Exists k1 =>
    obtain ⟨hw, hg⟩ := HandlerExists_ledger_frame s k1
    simp only [invoke, Prod.mk.injEq, reduceCtorEq, false_and, exists_false, false_imp_iff,
      true_and, not_false_eq_true, ne_eq, true_imp_iff]
    exact holds_of_eq hw hg
  | Read k1 =>
    obtain ⟨hw, hg⟩ := ReadHandler_ledger_frame s k1
    simp only [invoke, Prod.mk.injEq, reduceCtorEq, false_and, exists_false, false_imp_iff,
      true_and, not_false_eq_true, ne_eq, true_imp_iff]
    exact holds_of_eq hw hg
  | Create k1 v1 =>
    simp only [invoke, Prod.mk.injEq, Op.Create.injEq, reduceCtorEq, false_and,
      false_imp_iff, true_and, not_false_eq_true, ne_eq, true_imp_iff]
    rcases CreateHandler_ledger_cases s k1 v1 with ⟨hf, hw, hg⟩ | ⟨hok, hg1, hw1, hw, hg⟩
    · refine ⟨?_, ?_⟩
      · rintro ⟨v, -, h⟩; exact absurd h hf
      · intro _; exact holds_of_eq hw hg
    · refine ⟨?_, ?_⟩
      · rintro ⟨v, ⟨rfl, -⟩, -⟩
        rw [holds_set hw hg, if_pos rfl]
        exact ⟨hg1, _, rfl⟩
      · intro hne
        have hk : k ≠ k1 := by
          intro hk
          exact hne ⟨v1, ⟨hk.symm, rfl⟩, hok⟩
        rw [holds_set hw hg, if_neg hk]
  | Update k1 v1 =>
    simp only [invoke, Prod.mk.injEq, reduceCtorEq, false_and, exists_false, false_imp_iff,
      true_and, not_false_eq_true, ne_eq, true_imp_iff]
    rcases UpdateHandler_ledger_cases s k1 v1 with ⟨hf, hw, hg⟩ | ⟨hok, hg1, hd, hw, hg⟩
    · exact holds_of_eq hw hg
    · rw [holds_set hw hg]
      split_ifs with hk
      · subst hk
        simp [Ledger.holds, hg1, hd]
      · rfl
  | Delete k1 =>
    simp only [invoke, Prod.mk.injEq, Op.Delete.injEq, reduceCtorEq, false_and, exists_false,
      false_imp_iff, true_and, not_false_eq_true, ne_eq, true_imp_iff]
    rcases DeleteHandler_ledger_cases s k1 with ⟨hf, hw, hg⟩ | ⟨hok, hg1, hd, hw, hg⟩
    · refine ⟨?_, ?_⟩
      · rintro ⟨-, h⟩; exact absurd h hf
      · intro _; exact holds_of_eq hw hg
    · refine ⟨?_, ?_⟩
      · rintro ⟨rfl, -⟩
        rw [holds_set hw hg, if_pos rfl]
        simp
      · intro hne
        have hk : k ≠ k1 := by
          intro hk
          exact hne ⟨hk.symm, hok⟩
        rw [holds_set hw hg, if_neg hk]

theorem runAll_holds (k : GoString) (ops : List Op) : ∀ s : Ledger,
    (runAll ledgerStub ops s).2.holds k ↔
      keptCreate k (runAll ledgerStub ops s).1
        ∨ (s.holds k ∧ noDelete k (runAll ledgerStub ops s).1) := by
  induction ops with
  | nil =>
    intro s
    simp [runAll, keptCreate, noDelete]
  | cons op ops ih =>
    intro s
    simp only [runAll]
    rw [ih (invoke ledgerStub op s).2, keptCreate_cons, noDelete_cons]
    obtain ⟨h1, h2, h3⟩ := invoke_holds s op k
    by_cases hc : ∃ v, (op, (invoke ledgerStub op s).1) = (Op.Create k v, none)
    · have hne : (op, (invoke ledgerStub op s).1) ≠ (Op.Delete k, none) := by
        obtain ⟨v, hv⟩ := hc
        rw [hv]; simp
      have := h1 hc
      tauto
    · by_cases hd : (op, (invoke ledgerStub op s).1) = (Op.Delete k, none)
      · have := h2 hd
        tauto
      · have := h3 hc hd
        tauto

/-! ### The documents the decoder rejects -/

theorem appendStringLoop_fuel (f1 : Nat) : ∀ (f2 : Nat) (s : List Byte),
    s.length ≤ f1 → s.length ≤ f2 → appendStringLoop f1 s = appendStringLoop f2 s := by
  induction f1 with
  | zero =>
    intro f2 s h1 _
    have : s = [] := List.length_eq_zero.mp (by omega)
    subst this
    cases f2 <;> simp [appendStringLoop]
  | succ f1 ih =>
    intro f2 s h1 h2
    cases s with
    | nil => cases f2 <;> simp [appendStringLoop]
    | cons c t =>
      cases f2 with
      | zero => simp at h2
      | succ f2 =>
        simp only [List.length_cons, Nat.add_le_add_iff_right] at h1 h2
        rw [appendStringLoop_cons, appendStringLoop_cons, ih f2 t h1 h2,
          ih f2 (t.drop ((DecodeRune (c :: t)).2 - 1)) (by simp; omega) (by simp; omega)]

theorem coerceLoop_fuel (f1 : Nat) : ∀ (f2 : Nat) (s : List Byte),
    s.length ≤ f1 → s.length ≤ f2 → coerceLoop f1 s = coerceLoop f2 s := by
  induction f1 with
  | zero =>
    intro f2 s h1 _
    have : s = [] := List.length_eq_zero.mp (by omega)
    subst this
    cases f2 <;> simp [coerceLoop]
  | succ f1 ih =>
    intro f2 s h1 h2
    cases s with
    | nil => cases f2 <;> simp [coerceLoop]
    | cons c t =>
      cases f2 with
      | zero => simp at h2
      | succ f2 =>
        simp only [List.length_cons, Nat.add_le_add_iff_right] at h1 h2
        rw [coerceLoop_cons, coerceLoop_cons, ih f2 t h1 h2,
          ih f2 (t.drop ((DecodeRune (c :: t)).2 - 1)) (by simp; omega) (by simp; omega)]

theorem ValidLoop_fuel (f1 : Nat) : ∀ (f2 : Nat) (s : List Byte),
    s.length ≤ f1 → s.length ≤ f2 → ValidLoop f1 s = ValidLoop f2 s := by
  induction f1 with
  | zero =>
    intro f2 s h1 _
    have : s = [] := List.length_eq_zero.mp (by omega)
    subst this
    cases f2 <;> simp [ValidLoop]
  | succ f1 ih =>
    intro f2 s h1 h2
    cases s with
    | nil => cases f2 <;> simp [ValidLoop]
    | cons c t =>
      cases f2 with
      | zero => simp at h2
      | succ f2 =>
        simp only [List.length_cons, Nat.add_le_add_iff_right] at h1 h2
        rw [ValidLoop_cons, ValidLoop_cons, ih f2 t h1 h2,
          ih f2 (t.drop ((DecodeRune (c :: t)).2 - 1)) (by simp; omega) (by simp; omega)]

theorem unquoteScan_fuel (f1 : Nat) : ∀ (f2 : Nat) (s : List Byte),
    s.length ≤ f1 → s.length ≤ f2 → unquoteScan f1 s = unquoteScan f2 s := by
  induction f1 with
  | zero =>
    intro f2 s h1 _
    have : s = [] := List.length_eq_zero.mp (by omega)
    subst this
    cases f2 <;> simp [unquoteScan]
  | succ f1 ih =>
    intro f2 s h1 h2
    cases s with
    | nil => cases f2 <;> simp [unquoteScan]
    | cons c t =>
      cases f2 with
      | zero => simp at h2
      | succ f2 =>
        simp only [List.length_cons, Nat.add_le_add_iff_right] at h1 h2
        rw [unquoteScan_cons, unquoteScan_cons, ih f2 t h1 h2,
          ih f2 (t.drop ((DecodeRune (c :: t)).2 - 1)) (by simp; omega) (by simp; omega)]

theorem skipSpace_length (d : List Byte) : (skipSpace d).length ≤ d.length := by
  induction d with
  | nil => simp [skipSpace]
  | cons c t ih =>
    rw [skipSpace]
    split_ifs
    · simp only [List.length_cons]; omega
    · exact Nat.le_refl _

theorem scanString_length : ∀ (d raw rest : List Byte),
    scanString d = some (raw, rest) → rest.length < d.length := by
  intro d
  induction' hn : d.length using Nat.strong_induction_on with n ih generalizing d
  intro raw rest h
  cases d with
  | nil => rw [scanString.eq_def] at h; simp at h
  | cons c t =>
    subst hn
    by_cases hq : c.val = 0x22
    · rw [scanString.eq_def] at h
      simp only [if_pos hq, Option.some.injEq, Prod.mk.injEq] at h
      rw [← h.2]; simp
    by_cases hb : c.val = 0x5C
    · cases t with
      | nil => rw [scanString.eq_def] at h; simp [hq, hb] at h
      | cons e t1 =>
        by_cases hs : isSimpleEscape e.val = true
        · rw [scanString_simple c e t1 hb hs] at h
          obtain ⟨r, hr, hre⟩ := Option.map_eq_some'.mp h
          simp only [Prod.mk.injEq] at hre
          have := ih t1.length (by simp; omega) t1 rfl r.1 r.2 hr
          rw [← hre.2]; simp only [List.length_cons]; omega
        · by_cases hu : e.val = 0x75
          · have hs5 : isSimpleEscape 0x75 = false := by decide
            match t1, h with
            | h1 :: h2 :: h3 :: h4 :: t2, h =>
              by_cases hd : (isHexDigit h1.val && isHexDigit h2.val && isHexDigit h3.val
                  && isHexDigit h4.val) = true
              · have hd' := hd
                simp only [Bool.and_eq_true] at hd'
                rw [scanString_u c e h1 h2 h3 h4 t2 hb hu hd'.1.1.1 hd'.1.1.2 hd'.1.2 hd'.2] at h
                obtain ⟨r, hr, hre⟩ := Option.map_eq_some'.mp h
                simp only [Prod.mk.injEq] at hre
                have := ih t2.length (by simp; omega) t2 rfl r.1 r.2 hr
                rw [← hre.2]; simp only [List.length_cons]; omega
              · rw [scanString.eq_def] at h
                simp only [] at h
                rw [if_neg hq, if_pos hb, if_neg hs, if_pos hu, if_neg hd] at h
                simp at h
            | [], h => rw [scanString.eq_def] at h; simp [hq, hb, hs5, hu] at h
            | [_], h => rw [scanString.eq_def] at h; simp [hq, hb, hs5, hu] at h
            | [_, _], h => rw [scanString.eq_def] at h; simp [hq, hb, hs5, hu] at h
            | [_, _, _], h => rw [scanString.eq_def] at h; simp [hq, hb, hs5, hu] at h
          · rw [scanString.eq_def] at h; simp [hq, hb, hs, hu] at h
    by_cases hl : c.val < 0x20
    · rw [scanString.eq_def] at h; simp [hq, hb, hl] at h
    · rw [scanString_plain c t hq hb hl] at h
      obtain ⟨r, hr, hre⟩ := Option.map_eq_some'.mp h
      simp only [Prod.mk.injEq] at hre
      have := ih t.length (by simp) t rfl r.1 r.2 hr
      rw [← hre.2]; simp only [List.length_cons]; omega

theorem parseString_length (d : List Byte) (s : GoString) (rest : List Byte)
    (h : parseString d = some (s, rest)) : rest.length < d.length := by
  unfold parseString at h
  cases hs : scanString d with
  | none => rw [hs] at h; simp at h
  | some r =>
    obtain ⟨raw, rest1⟩ := r
    rw [hs] at h
    simp only [] at h
    cases hu : unquoteBytes raw with
    | none => rw [hu] at h; simp at h
    | some x =>
      rw [hu] at h
      simp only [Option.some.injEq, Prod.mk.injEq] at h
      rw [← h.2]
      exact scanString_length d raw rest1 hs

theorem skipDigits_length (d : List Byte) : (skipDigits d).length ≤ d.length := by
  induction d with
  | nil => simp [skipDigits]
  | cons c t ih =>
    rw [skipDigits]
    split_ifs
    · simp only [List.length_cons]; omega
    · exact Nat.le_refl _

theorem digits1_length (d rest : List Byte) (h : digits1 d = some rest) :
    rest.length < d.length := by
  cases d with
  | nil => simp [digits1] at h
  | cons c t =>
    rw [digits1] at h
    split_ifs at h
    simp only [Option.some.injEq] at h
    rw [← h]
    have := skipDigits_length t
    simp only [List.length_cons]; omega

theorem scanExponent_length (d rest : List Byte) (h : scanExponent d = some rest) :
    rest.length < d.length := by
  cases d with
  | nil => simp [scanExponent] at h
  | cons c t =>
    rw [scanExponent] at h
    split_ifs at h
    · have := digits1_length t rest h
      simp only [List.length_cons]; omega
    · exact digits1_length _ rest h

theorem scanFraction_length (d rest : List Byte) (h : scanFraction d = some rest) :
    rest.length ≤ d.length := by
  cases d with
  | nil => simp [scanFraction] at h; rw [← h]
  | cons c t =>
    rw [scanFraction] at h
    split_ifs at h
    · cases hd : digits1 t with
      | none => rw [hd] at h; simp at h
      | some r =>
        have hl := digits1_length t r hd
        rw [hd] at h
        cases r with
        | nil => simp at h; subst h; simp
        | cons x r1 =>
          simp only [] at h
          split_ifs at h
          · have := scanExponent_length r1 rest h
            simp only [List.length_cons] at hl ⊢; omega
          · simp only [Option.some.injEq] at h
            rw [← h]
            simp only [List.length_cons] at hl ⊢; omega
    · have := scanExponent_length t rest h
      simp only [List.length_cons]; omega
    · simp only [Option.some.injEq] at h
      rw [← h]

theorem scanInteger_length (d rest : List Byte) (h : scanInteger d = some rest) :
    rest.length < d.length := by
  cases d with
  | nil => simp [scanInteger] at h
  | cons c t =>
    rw [scanInteger] at h
    split_ifs at h
    · have := scanFraction_length t rest h
      simp only [List.length_cons]; omega
    · have := scanFraction_length _ rest h
      have := skipDigits_length t
      simp only [List.length_cons]; omega

theorem scanNumber_length (d rest : List Byte) (h : scanNumber d = some rest) :
    rest.length < d.length := by
  cases d with
  | nil => simp [scanNumber] at h
  | cons c t =>
    rw [scanNumber] at h
    split_ifs at h
    · have := scanInteger_length t rest h
      simp only [List.length_cons]; omega
    · exact scanInteger_length _ rest h

theorem expectBytes_length (lit d rest : List Byte) (h : expectBytes lit d = some rest) :
    rest.length ≤ d.length := by
  unfold expectBytes at h
  split_ifs at h
  simp only [Option.some.injEq] at h
  rw [← h]
  simp

theorem skipSpace_cons_length {d rest : List Byte} {c : Byte} (h : skipSpace d = c :: rest) :
    rest.length < d.length := by
  have := skipSpace_length d
  rw [h] at this
  simp only [List.length_cons] at this
  omega

theorem parse_progress (f : Nat) :
    (∀ depth d v rest, parseValue f depth d = some (v, rest) → rest.length < d.length) ∧
    (∀ depth d ms rest, parseMembers f depth d = some (ms, rest) → rest.length < d.length) ∧
    (∀ depth d xs rest, parseElements f depth d = some (xs, rest) → rest.length < d.length) := by
  induction f with
  | zero =>
    refine ⟨?_, ?_, ?_⟩ <;> intro depth d v rest h
    · simp [parseValue] at h
    · simp [parseMembers] at h
    · simp [parseElements] at h
  | succ f ih =>
    obtain ⟨ihV, ihM, ihE⟩ := ih
    refine ⟨?_, ?_, ?_⟩
    · intro depth d v rest h
      rw [parseValue] at h
      cases hsk : skipSpace d with
      | nil => rw [hsk] at h; simp at h
      | cons c t =>
        have hlt := skipSpace_cons_length hsk
        rw [hsk] at h
        simp only [] at h
        split_ifs at h with h1 h2 h3 h4 h5 h6 h7 h8 h9
        · cases hsk1 : skipSpace t with
          | nil => rw [hsk1] at h; simp at h
          | cons c1 t1 =>
            have hlt1 := skipSpace_cons_length hsk1
            rw [hsk1] at h
            simp only [] at h
            split_ifs at h
            · simp only [Option.some.injEq, Prod.mk.injEq] at h
              rw [← h.2]; omega
            · obtain ⟨r, hr, hre⟩ := Option.map_eq_some'.mp h
              simp only [Prod.mk.injEq] at hre
              have := ihM _ _ _ _ (show parseMembers f (depth + 1) (c1 :: t1) = some (r.1, r.2) from hr)
              rw [← hre.2]
              simp only [List.length_cons] at this
              omega
        · cases hsk1 : skipSpace t with
          | nil => rw [hsk1] at h; simp at h
          | cons c1 t1 =>
            have hlt1 := skipSpace_cons_length hsk1
            rw [hsk1] at h
            simp only [] at h
            split_ifs at h
            · simp only [Option.some.injEq, Prod.mk.injEq] at h
              rw [← h.2]; omega
            · obtain ⟨r, hr, hre⟩ := Option.map_eq_some'.mp h
              simp only [Prod.mk.injEq] at hre
              have := ihE _ _ _ _ (show parseElements f (depth + 1) (c1 :: t1) = some (r.1, r.2) from hr)
              rw [← hre.2]
              simp only [List.length_cons] at this
              omega
        · obtain ⟨r, hr, hre⟩ := Option.map_eq_some'.mp h
          simp only [Prod.mk.injEq] at hre
          have := parseString_length t r.1 r.2 hr
          rw [← hre.2]; omega
        · obtain ⟨r, hr, hre⟩ := Option.map_eq_some'.mp h
          simp only [Prod.mk.injEq] at hre
          have := scanNumber_length _ r hr
          rw [← hre.2]
          have := skipSpace_length d
          rw [hsk] at this
          omega
        · obtain ⟨r, hr, hre⟩ := Option.map_eq_some'.mp h
          simp only [Prod.mk.injEq] at hre
          have := expectBytes_length _ t r hr
          rw [← hre.2]; omega
        · obtain ⟨r, hr, hre⟩ := Option.map_eq_some'.mp h
          simp only [Prod.mk.injEq] at hre
          have := expectBytes_length _ t r hr
          rw [← hre.2]; omega
        · obtain ⟨r, hr, hre⟩ := Option.map_eq_some'.mp h
          simp only [Prod.mk.injEq] at hre
          have := expectBytes_length _ t r hr
          rw [← hre.2]; omega
    · intro depth d ms rest h
      rw [parseMembers] at h
      cases hsk : skipSpace d with
      | nil => rw [hsk] at h; simp at h
      | cons q t =>
        have hlt := skipSpace_cons_length hsk
        rw [hsk] at h
        simp only [] at h
        split_ifs at h with hq
        cases hps : parseString t with
        | none => rw [hps] at h; simp at h
        | some r =>
          obtain ⟨key, rest1⟩ := r
          have hl1 := parseString_length t key rest1 hps
          rw [hps] at h
          simp only [] at h
          cases hsk2 : skipSpace rest1 with
          | nil => rw [hsk2] at h; simp at h
          | cons c rest2 =>
            have hlt2 := skipSpace_cons_length hsk2
            rw [hsk2] at h
            simp only [] at h
            split_ifs at h with hc
            cases hpv : parseValue f depth rest2 with
            | none => rw [hpv] at h; simp at h
            | some r =>
              obtain ⟨v, rest3⟩ := r
              have hl3 := ihV _ _ _ _ hpv
              rw [hpv] at h
              simp only [] at h
              cases hsk4 : skipSpace rest3 with
              | nil => rw [hsk4] at h; simp at h
              | cons e rest4 =>
                have hlt4 := skipSpace_cons_length hsk4
                rw [hsk4] at h
                simp only [] at h
                split_ifs at h with he1 he2
                · obtain ⟨r, hr, hre⟩ := Option.map_eq_some'.mp h
                  simp only [Prod.mk.injEq] at hre
                  have := ihM _ _ _ _ (show parseMembers f depth rest4 = some (r.1, r.2) from hr)
                  rw [← hre.2]; omega
                · simp only [Option.some.injEq, Prod.mk.injEq] at h
                  rw [← h.2]; omega
    · intro depth d xs rest h
      rw [parseElements] at h
      cases hpv : parseValue f depth d with
      | none => rw [hpv] at h; simp at h
      | some r =>
        obtain ⟨v, rest0⟩ := r
        have hl0 := ihV _ _ _ _ hpv
        rw [hpv] at h
        simp only [] at h
        cases hsk : skipSpace rest0 with
        | nil => rw [hsk] at h; simp at h
        | cons e rest1 =>
          have hlt := skipSpace_cons_length hsk
          rw [hsk] at h
          simp only [] at h
          split_ifs at h with he1 he2
          · obtain ⟨r, hr, hre⟩ := Option.map_eq_some'.mp h
            simp only [Prod.mk.injEq] at hre
            have := ihE _ _ _ _ (show parseElements f depth rest1 = some (r.1, r.2) from hr)
            rw [← hre.2]; omega
          · simp only [Option.some.injEq, Prod.mk.injEq] at h
            rw [← h.2]; omega

theorem parse_fuel (f1 : Nat) : ∀ f2 : Nat,
    (∀ depth d, 2 * d.length + 1 ≤ f1 → 2 * d.length + 1 ≤ f2 →
      parseValue f1 depth d = parseValue f2 depth d) ∧
    (∀ depth d, 2 * d.length + 2 ≤ f1 → 2 * d.length + 2 ≤ f2 →
      parseMembers f1 depth d = parseMembers f2 depth d) ∧
    (∀ depth d, 2 * d.length + 2 ≤ f1 → 2 * d.length + 2 ≤ f2 →
      parseElements f1 depth d = parseElements f2 depth d) := by
  induction f1 with
  | zero =>
    intro f2
    refine ⟨?_, ?_, ?_⟩ <;> intro depth d h1 _ <;> omega
  | succ f1 ih =>
    intro f2
    cases f2 with
    | zero => refine ⟨?_, ?_, ?_⟩ <;> intro depth d _ h2 <;> omega
    | succ f2 =>
      obtain ⟨ihV, ihM, ihE⟩ := ih f2
      refine ⟨?_, ?_, ?_⟩
      · intro depth d h1 h2
        rw [parseValue, parseValue]
        cases hsk : skipSpace d with
        | nil => rfl
        | cons c t =>
          have hlt := skipSpace_cons_length hsk
          simp only []
          cases hsk1 : skipSpace t with
          | nil => rfl
          | cons c1 t1 =>
            have hlt1 := skipSpace_cons_length hsk1
            have hl : (c1 :: t1).length < d.length := by
              simp only [List.length_cons]; omega
            simp only []
            rw [ihM (depth + 1) (c1 :: t1) (by omega) (by omega),
              ihE (depth + 1) (c1 :: t1) (by omega) (by omega)]
      · intro depth d h1 h2
        rw [parseMembers, parseMembers]
        cases hsk : skipSpace d with
        | nil => rfl
        | cons q t =>
          have hlt := skipSpace_cons_length hsk
          simp only []
          split_ifs with hq
          · cases hps : parseString t with
            | none => rfl
            | some r =>
              obtain ⟨key, rest1⟩ := r
              have hl1 := parseString_length t key rest1 hps
              simp only []
              cases hsk2 : skipSpace rest1 with
              | nil => rfl
              | cons c rest2 =>
                have hlt2 := skipSpace_cons_length hsk2
                simp only []
                split_ifs with hc
                · rw [ihV depth rest2 (by omega) (by omega)]
                  cases hpv : parseValue f2 depth rest2 with
                  | none => rfl
                  | some r =>
                    obtain ⟨v, rest3⟩ := r
                    have hl3 := (parse_progress f2).1 _ _ _ _ hpv
                    simp only []
                    cases hsk4 : skipSpace rest3 with
                    | nil => rfl
                    | cons e rest4 =>
                      have hlt4 := skipSpace_cons_length hsk4
                      simp only []
                      rw [ihM depth rest4 (by omega) (by omega)]
                · rfl
          · rfl
      · intro depth d h1 h2
        rw [parseElements, parseElements, ihV depth d (by omega) (by omega)]
        cases hpv : parseValue f2 depth d with
        | none => rfl
        | some r =>
          obtain ⟨v, rest0⟩ := r
          have hl0 := (parse_progress f2).1 _ _ _ _ hpv
          simp only []
          cases hsk : skipSpace rest0 with
          | nil => rfl
          | cons e rest1 =>
            have hlt := skipSpace_cons_length hsk
            simp only []
            rw [ihE depth rest1 (by omega) (by omega)]

theorem parseDocument_fuel (data : List Byte) (f : Nat) (h : 2 * data.length + 1 ≤ f) :
    parseDocument data =
      match parseValue f 0 data with
      | none => none
      | some (v, rest) => if skipSpace rest = [] then some v else none := by
  unfold parseDocument
  rw [(parse_fuel (2 * data.length + 1) f).1 0 data (Nat.le_refl _) h]

/-! ### Reads of the ledger after an operation -/

theorem GetState_ledger_fst (s : Ledger) (k : GoString) :
    (ledgerStub.GetState k s).1
      = match s.getErr k with
        | some e => (none, some e)
        | none => (s.world k, none) := by
  simp only [ledgerStub]
  cases s.getErr k <;> rfl

theorem GetState_ledger_congr {s s1 : Ledger} (k1 : GoString)
    (hw : s1.world k1 = s.world k1) (hg : s1.getErr = s.getErr) :
    (ledgerStub.GetState k1 s1).1 = (ledgerStub.GetState k1 s).1 := by
  rw [GetState_ledger_fst, GetState_ledger_fst, hw, hg]

theorem Ledger.set_ne (s : Ledger) {k k1 : GoString} (x : Option (List Byte)) (h : k ≠ k1) :
    s.set k x k1 = s.world k1 := by
  simp only [Ledger.set]
  rw [if_neg (fun h1 => h h1.symm)]

theorem mutations_record_get (s : Ledger) (k : GoString)
    (w : GoString → Option (List Byte)) :
    mutations (s.record (Call.GetState k) w).calls = mutations s.calls := by
  simp [Ledger.record, mutations]

/-! ### The value written for a key along a history -/

theorem writtenStep_failed (k : GoString) (acc : Option GoString) (op : Op)
    (r : Option GoError) (h : r ≠ none) : writtenStep k acc (op, r) = acc := by
  cases r with
  | none => exact absurd rfl h
  | some e => rfl

theorem invoke_written (s : Ledger) (op : Op) (k : GoString) (acc : Option GoString)
    (hw : s.world k = acc.map (fun v => Marshal (Handler.mk v))) :
    (invoke ledgerStub op s).2.world k
        = (writtenStep k acc (op, (invoke ledgerStub op s).1)).map
            (fun v => Marshal (Handler.mk v)) ∧
    (invoke ledgerStub op s).2.getErr = s.getErr := by
  cases op with
  | Exists k1 =>
    obtain ⟨hw1, hg1⟩ := HandlerExists_ledger_frame s k1
    refine ⟨?_, hg1⟩
    simp only [invoke]
    rw [hw1, hw]
    cases (HandlerExists ledgerStub k1 s).1.2 <;> rfl
  | Read k1 =>
    obtain ⟨hw1, hg1⟩ := ReadHandler_ledger_frame s k1
    refine ⟨?_, hg1⟩
    simp only [invoke]
    rw [hw1, hw]
    cases (ReadHandler ledgerStub k1 s).1.2 <;> rfl
  | Create k1 v1 =>
    simp only [invoke]
    rcases CreateHandler_ledger_cases s k1 v1 with ⟨hf, hw1, hg1⟩ | ⟨hok, -, -, hw1, hg1⟩
    · refine ⟨?_, hg1⟩
      rw [writtenStep_failed k acc _ _ hf, hw1, hw]
    · refine ⟨?_, hg1⟩
      rw [hok, hw1]
      simp only [writtenStep, Ledger.set]
      by_cases hk : k = k1
      · subst hk; simp
      · rw [if_neg hk, if_neg (fun h => hk h.symm), hw]
  | Update k1 v1 =>
    simp only [invoke]
    rcases UpdateHandler_ledger_cases s k1 v1 with ⟨hf, hw1, hg1⟩ | ⟨hok, -, -, hw1, hg1⟩
    · refine ⟨?_, hg1⟩
      rw [writtenStep_failed k acc _ _ hf, hw1, hw]
    · refine ⟨?_, hg1⟩
      rw [hok, hw1]
      simp only [writtenStep, Ledger.set]
      by_cases hk : k = k1
      · subst hk; simp
      · rw [if_neg hk, if_neg (fun h => hk h.symm), hw]
  | Delete k1 =>
    simp only [invoke]
    rcases DeleteHandler_ledger_cases s k1 with ⟨hf, hw1, hg1⟩ | ⟨hok, -, -, hw1, hg1⟩
    · refine ⟨?_, hg1⟩
      rw [writtenStep_failed k acc _ _ hf, hw1, hw]
    · refine ⟨?_, hg1⟩
      rw [hok, hw1]
      simp only [writtenStep, Ledger.set]
      by_cases hk : k = k1
      · subst hk; simp
      · rw [if_neg hk, if_neg (fun h => hk h.symm), hw]

theorem runAll_written (k : GoString) (ops : List Op) :
    ∀ (s : Ledger) (acc : Option GoString),
      s.world k = acc.map (fun v => Marshal (Handler.mk v)) →
      (runAll ledgerStub ops s).2.world k
          = ((runAll ledgerStub ops s).1.foldl (writtenStep k) acc).map
              (fun v => Marshal (Handler.mk v)) ∧
      (runAll ledgerStub ops s).2.getErr = s.getErr := by
  induction ops with
  | nil => intro s acc hw; exact ⟨hw, rfl⟩
  | cons op ops ih =>
    intro s acc hw
    obtain ⟨hw1, hg1⟩ := invoke_written s op k acc hw
    obtain ⟨hw2, hg2⟩ := ih (invoke ledgerStub op s).2 _ hw1
    simp only [runAll, List.foldl_cons]
    exact ⟨hw2, hg2.trans hg1⟩

theorem notFoundError_ne_unmarshalError (k : GoString) : notFoundError k ≠ unmarshalError := by
  intro h
  have h1 : (notFoundError k).Error.head? = unmarshalError.Error.head? := by rw [h]
  have h2 : (notFoundError k).Error.head? = some 0x54 := by
    show (str "The asset " ++ k ++ str " does not exist").head? = _
    have : str "The asset " = 0x54 :: str "he asset " := by decide
    rw [this]
    rfl
  have h3 : unmarshalError.Error.head? = some 0x43 := by decide
  rw [h2, h3] at h1
  exact absurd h1 (by decide)

/-! ### Reads that are not repeatable -/

theorem ReadHandler_flakyStub :
    (flakyStub.GetState (str "k") (flakyStub.GetState (str "k") 0).2).1
      ≠ (flakyStub.GetState (str "k") 0).1 ∧
    (ReadHandler flakyStub (str "k") 0).1 = (none, some unmarshalError) ∧
    ReadHandlerSingle flakyStub (str "k") 0 = (some (Handler.mk (str "set value")), none) := by
  decide

theorem GetState_ledger_repeatable (s : Ledger) (k : GoString) :
    (ledgerStub.GetState k (ledgerStub.GetState k s).2).1 = (ledgerStub.GetState k s).1 := by
  apply GetState_ledger_congr
  · simp only [ledgerStub]; cases s.getErr k <;> rfl
  · simp only [ledgerStub]; cases s.getErr k <;> rfl

/-! ### What the decoder does with a text, by its first bytes -/

/-- C1 (as stated, refuted): creating `missingkey` with the one-byte value `0xFF` (not
valid UTF-8) succeeds, and reading it back returns the record whose value is the
encoding of U+FFFD, not the value that was passed. -/
theorem C1_counterexample :
    (CreateHandler ledgerStub (str "missingkey") [0xFF] testLedger).1 = none ∧
    (ReadHandler ledgerStub (str "missingkey")
      (CreateHandler ledgerStub (str "missingkey") [0xFF] testLedger).2).1
      = (some (Handler.mk [0xEF, 0xBF, 0xBD]), none) ∧
    (ReadHandler ledgerStub (str "missingkey")
      (CreateHandler ledgerStub (str "missingkey") [0xFF] testLedger).2).1
      ≠ (some (Handler.mk [0xFF]), none) := by
  decide

/-- C1 (amended): whenever `CreateHandler k v` succeeds, on the resulting store
`ReadHandler k` succeeds and returns the record whose `Value` is `v` coerced to
well-formed UTF-8, which is exactly `v` when `v` is valid UTF-8, and `HandlerExists k`
returns true with no error. -/
theorem C1_create_then_read (s : Ledger) (k v : GoString)
    (h : (CreateHandler ledgerStub k v s).1 = none) :
    (ReadHandler ledgerStub k (CreateHandler ledgerStub k v s).2).1
        = (some (Handler.mk (coerceUTF8 v)), none) ∧
    (ValidString v = true →
      (ReadHandler ledgerStub k (CreateHandler ledgerStub k v s).2).1
        = (some (Handler.mk v), none)) ∧
    (HandlerExists ledgerStub k (CreateHandler ledgerStub k v s).2).1 = (true, none) := by
  cases hg : s.getErr k with
  | some e => rw [CreateHandler_ledger_err v hg] at h; simp at h
  | none =>
    cases hw : s.world k with
    | some d => rw [CreateHandler_ledger_present v hg hw] at h; simp at h
    | none =>
      rw [CreateHandler_ledger_vacant v hg hw] at h ⊢
      rw [PutState_ledger_ok h]
      have h1 : ((s.record (Call.GetState k) s.world).record
          (Call.PutState k (Marshal (Handler.mk v)))
          ((s.record (Call.GetState k) s.world).set k (some (Marshal (Handler.mk v))))).getErr k
          = none := hg
      have h2 : ((s.record (Call.GetState k) s.world).record
          (Call.PutState k (Marshal (Handler.mk v)))
          ((s.record (Call.GetState k) s.world).set k (some (Marshal (Handler.mk v))))).world k
          = some (Marshal (Handler.mk v)) := by
        simp [Ledger.record, Ledger.set]
      have hr : (ReadHandler ledgerStub k ((s.record (Call.GetState k) s.world).record
          (Call.PutState k (Marshal (Handler.mk v)))
          ((s.record (Call.GetState k) s.world).set k (some (Marshal (Handler.mk v)))))).1
          = (some (Handler.mk (coerceUTF8 v)), none) := by
        rw [ReadHandler_ledger_present h1 h2, Unmarshal_Marshal]
        simp
      refine ⟨hr, ?_, ?_⟩
      · intro hv
        rw [hr, coerceUTF8_of_valid v hv]
      · rw [HandlerExists_ledger_ok h1, h2]
        rfl

/-- C1 (amended), witness: creating `missingkey` with value `some value` in the world
state of the tests. -/
theorem C1_create_then_read_witness :
    (CreateHandler ledgerStub (str "missingkey") (str "some value") testLedger).1 = none ∧
    (ReadHandler ledgerStub (str "missingkey")
      (CreateHandler ledgerStub (str "missingkey") (str "some value") testLedger).2).1
        = (some (Handler.mk (str "some value")), none) :=
  ⟨by decide,
    (C1_create_then_read testLedger (str "missingkey") (str "some value") (by decide)).2.1
      (by decide)⟩

/-- C2: `CreateHandler k v` on a key that holds a value fails with the error `The asset
k already exists`; the only call it makes on the store is the read of `k`, so it
performs no write or delete, and the store, in particular the value at `k`, is
unchanged. -/
theorem C2_create_existing (s : Ledger) (k v : GoString) (d : List Byte)
    (h : (ledgerStub.GetState k s).1 = (some d, none)) :
    (CreateHandler ledgerStub k v s).1
        = some (GoError.mk (str "The asset " ++ k ++ str " already exists")) ∧
    (CreateHandler ledgerStub k v s).2.calls = s.calls ++ [Call.GetState k] ∧
    mutations (CreateHandler ledgerStub k v s).2.calls = mutations s.calls ∧
    (CreateHandler ledgerStub k v s).2.world = s.world ∧
    (ledgerStub.GetState k (CreateHandler ledgerStub k v s).2).1 = (some d, none) := by
  obtain ⟨hg, hw⟩ := getState_ok h
  rw [CreateHandler_ledger_present v hg hw]
  refine ⟨rfl, rfl, ?_, rfl, ?_⟩
  · simp [Ledger.record, mutations]
  · simp [ledgerStub, Ledger.record, hg, hw]

/-- C2, witness: `existingkey` of the test world state. -/
theorem C2_create_existing_witness :
    (ledgerStub.GetState (str "existingkey") testLedger).1 = (some (str "some value"), none) ∧
    (CreateHandler ledgerStub (str "existingkey") (str "some value") testLedger).1
        = some (GoError.mk (str "The asset " ++ str "existingkey" ++ str " already exists")) :=
  ⟨by decide,
    (C2_create_existing testLedger (str "existingkey") (str "some value") (str "some value")
      (by decide)).1⟩

/-- C3 (as stated, refuted): updating `handlerkey` of the test world state to the
one-byte value `0xFF` (not valid UTF-8) succeeds, and reading it back returns the record
whose value is the encoding of U+FFFD, not the value that was passed. -/
theorem C3_counterexample :
    (ledgerStub.GetState (str "handlerkey") testLedger).1
      = (some (Marshal (Handler.mk (str "set value"))), none) ∧
    (UpdateHandler ledgerStub (str "handlerkey") [0xFF] testLedger).1 = none ∧
    (ReadHandler ledgerStub (str "handlerkey")
      (UpdateHandler ledgerStub (str "handlerkey") [0xFF] testLedger).2).1
      = (some (Handler.mk [0xEF, 0xBF, 0xBD]), none) ∧
    (ReadHandler ledgerStub (str "handlerkey")
      (UpdateHandler ledgerStub (str "handlerkey") [0xFF] testLedger).2).1
      ≠ (some (Handler.mk [0xFF]), none) := by
  decide

/-- C3 (amended): for a key `k` that holds any bytes `d`, whenever `UpdateHandler k v2`
succeeds, on the resulting store `ReadHandler k` succeeds and returns the record whose
`Value` is `v2` coerced to well-formed UTF-8, which is exactly `v2` when `v2` is valid
UTF-8; the result is given by `v2` alone, whatever was stored at `k` before. -/
theorem C3_update_then_read (s : Ledger) (k v2 : GoString) (d : List Byte)
    (hk : (ledgerStub.GetState k s).1 = (some d, none))
    (h : (UpdateHandler ledgerStub k v2 s).1 = none) :
    (ReadHandler ledgerStub k (UpdateHandler ledgerStub k v2 s).2).1
        = (some (Handler.mk (coerceUTF8 v2)), none) ∧
    (ValidString v2 = true →
      (ReadHandler ledgerStub k (UpdateHandler ledgerStub k v2 s).2).1
        = (some (Handler.mk v2), none)) := by
  obtain ⟨hg, hw⟩ := getState_ok hk
  rw [UpdateHandler_ledger_present v2 hg hw] at h ⊢
  rw [PutState_ledger_ok h]
  have h1 : ((s.record (Call.GetState k) s.world).record
      (Call.PutState k (Marshal (Handler.mk v2)))
      ((s.record (Call.GetState k) s.world).set k (some (Marshal (Handler.mk v2))))).getErr k
      = none := hg
  have h2 : ((s.record (Call.GetState k) s.world).record
      (Call.PutState k (Marshal (Handler.mk v2)))
      ((s.record (Call.GetState k) s.world).set k (some (Marshal (Handler.mk v2))))).world k
      = some (Marshal (Handler.mk v2)) := by
    simp [Ledger.record, Ledger.set]
  have hr : (ReadHandler ledgerStub k ((s.record (Call.GetState k) s.world).record
      (Call.PutState k (Marshal (Handler.mk v2)))
      ((s.record (Call.GetState k) s.world).set k (some (Marshal (Handler.mk v2)))))).1
      = (some (Handler.mk (coerceUTF8 v2)), none) := by
    rw [ReadHandler_ledger_present h1 h2, Unmarshal_Marshal]
    simp
  refine ⟨hr, ?_⟩
  intro hv
  rw [hr, coerceUTF8_of_valid v2 hv]

/-- C3 (amended), witness: updating `handlerkey` of the test world state, which holds
the record with value `set value`, to `new value`. -/
theorem C3_update_then_read_witness :
    (ledgerStub.GetState (str "handlerkey") testLedger).1
      = (some (Marshal (Handler.mk (str "set value"))), none) ∧
    (UpdateHandler ledgerStub (str "handlerkey") (str "new value") testLedger).1 = none ∧
    (ReadHandler ledgerStub (str "handlerkey")
      (UpdateHandler ledgerStub (str "handlerkey") (str "new value") testLedger).2).1
        = (some (Handler.mk (str "new value")), none) :=
  ⟨by decide, by decide,
    (C3_update_then_read testLedger (str "handlerkey") (str "new value")
      (Marshal (Handler.mk (str "set value"))) (by decide) (by decide)).2 (by decide)⟩

/-- C4: for a key `k` that holds a value, whenever `DeleteHandler k` succeeds, on the
resulting store `HandlerExists k` returns false with no error and `ReadHandler k`
returns no record and the error `The asset k does not exist`. -/
theorem C4_delete_then_absent (s : Ledger) (k : GoString) (d : List Byte)
    (hk : (ledgerStub.GetState k s).1 = (some d, none))
    (h : (DeleteHandler ledgerStub k s).1 = none) :
    (HandlerExists ledgerStub k (DeleteHandler ledgerStub k s).2).1 = (false, none) ∧
    (ReadHandler ledgerStub k (DeleteHandler ledgerStub k s).2).1
        = (none, some (GoError.mk (str "The asset " ++ k ++ str " does not exist"))) := by
  obtain ⟨hg, hw⟩ := getState_ok hk
  rw [DeleteHandler_ledger_present hg hw] at h ⊢
  rw [DelState_ledger_ok h]
  have h1 : ((s.record (Call.GetState k) s.world).record (Call.DelState k)
      ((s.record (Call.GetState k) s.world).set k none)).getErr k = none := hg
  have h2 : ((s.record (Call.GetState k) s.world).record (Call.DelState k)
      ((s.record (Call.GetState k) s.world).set k none)).world k = none := by
    simp [Ledger.record, Ledger.set]
  rw [HandlerExists_ledger_ok h1, ReadHandler_ledger_vacant h1 h2, h2]
  exact ⟨rfl, rfl⟩

/-- C4, witness: deleting `handlerkey` of the test world state. -/
theorem C4_delete_then_absent_witness :
    (ledgerStub.GetState (str "handlerkey") testLedger).1
      = (some (Marshal (Handler.mk (str "set value"))), none) ∧
    (DeleteHandler ledgerStub (str "handlerkey") testLedger).1 = none ∧
    (HandlerExists ledgerStub (str "handlerkey")
      (DeleteHandler ledgerStub (str "handlerkey") testLedger).2).1 = (false, none) ∧
    (ReadHandler ledgerStub (str "handlerkey")
      (DeleteHandler ledgerStub (str "handlerkey") testLedger).2).1
        = (none, some (GoError.mk
            (str "The asset " ++ str "handlerkey" ++ str " does not exist"))) :=
  ⟨by decide, by decide,
    C4_delete_then_absent testLedger (str "handlerkey")
      (Marshal (Handler.mk (str "set value"))) (by decide) (by decide)⟩

/-- C5: on a key `k` that is vacant, each of `DeleteHandler k`, `ReadHandler k` and
`UpdateHandler k v` fails with the error `The asset k does not exist`, `ReadHandler`
returns no record, and the only call each makes on the store is the read of `k`: no
write or delete is performed and the world state is unchanged. -/
theorem C5_absent_not_found (s : Ledger) (k v : GoString)
    (h : (ledgerStub.GetState k s).1 = (none, none)) :
    ((DeleteHandler ledgerStub k s).1
        = some (GoError.mk (str "The asset " ++ k ++ str " does not exist")) ∧
      (DeleteHandler ledgerStub k s).2.calls = s.calls ++ [Call.GetState k] ∧
      mutations (DeleteHandler ledgerStub k s).2.calls = mutations s.calls ∧
      (DeleteHandler ledgerStub k s).2.world = s.world) ∧
    ((ReadHandler ledgerStub k s).1
        = (none, some (GoError.mk (str "The asset " ++ k ++ str " does not exist"))) ∧
      (ReadHandler ledgerStub k s).2.calls = s.calls ++ [Call.GetState k] ∧
      mutations (ReadHandler ledgerStub k s).2.calls = mutations s.calls ∧
      (ReadHandler ledgerStub k s).2.world = s.world) ∧
    ((UpdateHandler ledgerStub k v s).1
        = some (GoError.mk (str "The asset " ++ k ++ str " does not exist")) ∧
      (UpdateHandler ledgerStub k v s).2.calls = s.calls ++ [Call.GetState k] ∧
      mutations (UpdateHandler ledgerStub k v s).2.calls = mutations s.calls ∧
      (UpdateHandler ledgerStub k v s).2.world = s.world) := by
  obtain ⟨hg, hw⟩ := getState_ok h
  rw [DeleteHandler_ledger_vacant hg hw, ReadHandler_ledger_vacant hg hw,
    UpdateHandler_ledger_vacant v hg hw]
  have hm : mutations (s.record (Call.GetState k) s.world).calls = mutations s.calls := by
    simp [Ledger.record, mutations]
  exact ⟨⟨rfl, rfl, hm, rfl⟩, ⟨rfl, rfl, hm, rfl⟩, ⟨rfl, rfl, hm, rfl⟩⟩

/-- C5, witness: `missingkey` of the test world state. -/
theorem C5_absent_not_found_witness :
    (ledgerStub.GetState (str "missingkey") testLedger).1 = (none, none) ∧
    (UpdateHandler ledgerStub (str "missingkey") (str "new value") testLedger).1
        = some (GoError.mk (str "The asset " ++ str "missingkey" ++ str " does not exist")) :=
  ⟨by decide,
    (C5_absent_not_found testLedger (str "missingkey") (str "new value") (by decide)).2.2.1⟩

/-- C6 (as stated, refuted): on `statebad` of the test world state, whose read fails
with `world state get error`, `HandlerExists` returns that error as it is; its message
is not the message prefixed with `Could not read from world state. `. -/
theorem C6_counterexample :
    (ledgerStub.GetState (str "statebad") testLedger).1.2
      = some (GoError.mk (str "world state get error")) ∧
    (HandlerExists ledgerStub (str "statebad") testLedger).1
      = (false, some (GoError.mk (str "world state get error"))) ∧
    (HandlerExists ledgerStub (str "statebad") testLedger).1.2
      ≠ some (GoError.mk
          (str "Could not read from world state. " ++ str "world state get error")) := by
  decide

/-- C6 (amended): when the store read of `k` fails with error `e`, each of
`CreateHandler`, `ReadHandler`, `UpdateHandler` and `DeleteHandler` on `k` fails with
the error whose message is `Could not read from world state. ` followed by the message
of `e` (and `ReadHandler` returns no record), while `HandlerExists` fails with `e`
itself, unwrapped; each of the five makes the one read of `k` and no other call on the
store, so none performs a write or delete and the world state is unchanged. -/
theorem C6_read_failure (s : Ledger) (k v : GoString) (e : GoError)
    (h : (ledgerStub.GetState k s).1.2 = some e) :
    ((HandlerExists ledgerStub k s).1 = (false, some e) ∧
      (HandlerExists ledgerStub k s).2.calls = s.calls ++ [Call.GetState k] ∧
      (HandlerExists ledgerStub k s).2.world = s.world) ∧
    ((CreateHandler ledgerStub k v s).1
        = some (GoError.mk (str "Could not read from world state. " ++ e.Error)) ∧
      (CreateHandler ledgerStub k v s).2.calls = s.calls ++ [Call.GetState k] ∧
      (CreateHandler ledgerStub k v s).2.world = s.world) ∧
    ((ReadHandler ledgerStub k s).1
        = (none, some (GoError.mk (str "Could not read from world state. " ++ e.Error))) ∧
      (ReadHandler ledgerStub k s).2.calls = s.calls ++ [Call.GetState k] ∧
      (ReadHandler ledgerStub k s).2.world = s.world) ∧
    ((UpdateHandler ledgerStub k v s).1
        = some (GoError.mk (str "Could not read from world state. " ++ e.Error)) ∧
      (UpdateHandler ledgerStub k v s).2.calls = s.calls ++ [Call.GetState k] ∧
      (UpdateHandler ledgerStub k v s).2.world = s.world) ∧
    ((DeleteHandler ledgerStub k s).1
        = some (GoError.mk (str "Could not read from world state. " ++ e.Error)) ∧
      (DeleteHandler ledgerStub k s).2.calls = s.calls ++ [Call.GetState k] ∧
      (DeleteHandler ledgerStub k s).2.world = s.world) := by
  have hg := getState_err h
  rw [HandlerExists_ledger_err hg, CreateHandler_ledger_err v hg, ReadHandler_ledger_err hg,
    UpdateHandler_ledger_err v hg, DeleteHandler_ledger_err hg]
  have hm : readError e = GoError.mk (str "Could not read from world state. " ++ e.Error) := by
    simp [readError, Errorf]
  rw [hm]
  exact ⟨⟨rfl, rfl, rfl⟩, ⟨rfl, rfl, rfl⟩, ⟨rfl, rfl, rfl⟩, ⟨rfl, rfl, rfl⟩, ⟨rfl, rfl, rfl⟩⟩

/-- C6 (amended), witness: `statebad` of the test world state. -/
theorem C6_read_failure_witness :
    (ledgerStub.GetState (str "statebad") testLedger).1.2
      = some (GoError.mk (str "world state get error")) ∧
    (CreateHandler ledgerStub (str "statebad") (str "some value") testLedger).1
      = some (GoError.mk (str "Could not read from world state. "
          ++ (GoError.mk (str "world state get error")).Error)) :=
  ⟨by decide,
    (C6_read_failure testLedger (str "statebad") (str "some value")
      (GoError.mk (str "world state get error")) (by decide)).2.1.1⟩

/-- C7: over any stub, `HandlerExists k` is determined by its one read of `k`: it leaves
the stub in the state the read leaves it in, and it returns true with no error exactly
when the read succeeds with a non-nil value, false with no error exactly when the read
succeeds with nil, and false together with the error of the read, unchanged, exactly
when the read fails with that error. -/
theorem C7_HandlerExists_one_read {σ : Type} (stub : ChaincodeStub σ) (k : GoString) (s : σ) :
    (HandlerExists stub k s).2 = (stub.GetState k s).2 ∧
    ((HandlerExists stub k s).1 = (true, none)
      ↔ ∃ d, (stub.GetState k s).1 = (some d, none)) ∧
    ((HandlerExists stub k s).1 = (false, none) ↔ (stub.GetState k s).1 = (none, none)) ∧
    (∀ e, (HandlerExists stub k s).1 = (false, some e) ↔ (stub.GetState k s).1.2 = some e) := by
  unfold HandlerExists
  rcases hr : stub.GetState k s with ⟨⟨d, err⟩, s1⟩
  cases err with
  | some e0 => simp
  | none => cases d <;> simp

/-- C7, instance: the three keys `existingkey`, `missingkey` and `statebad` of the test
world state. -/
theorem C7_HandlerExists_one_read_witness :
    (HandlerExists ledgerStub (str "existingkey") testLedger).1 = (true, none) ∧
    (HandlerExists ledgerStub (str "missingkey") testLedger).1 = (false, none) ∧
    (HandlerExists ledgerStub (str "statebad") testLedger).1
      = (false, some (GoError.mk (str "world state get error"))) :=
  ⟨(C7_HandlerExists_one_read ledgerStub (str "existingkey") testLedger).2.1.mpr
      ⟨str "some value", by decide⟩,
    (C7_HandlerExists_one_read ledgerStub (str "missingkey") testLedger).2.2.1.mpr (by decide),
    ((C7_HandlerExists_one_read ledgerStub (str "statebad") testLedger).2.2.2 _).mpr
      (by decide)⟩

/-- C8 (as stated, refuted): the one-byte value `0xFF` contains none of the listed
characters (no control character, quote, backslash, `<`, `>`, `&`, U+2028, U+2029), yet
`CreateHandler` on `missingkey` writes the object whose string is the escape `\ufffd`,
not the object with the value copied between the quotes. -/
theorem C8_counterexample :
    DecodeRune ([0xFF] : GoString) = (0xFFFD, 1) ∧
    (∀ b ∈ ([0xFF] : GoString), 0x20 ≤ b.val ∧ b.val ≠ 0x7F ∧ b.val ≠ 0x22 ∧ b.val ≠ 0x5C
      ∧ b.val ≠ 0x3C ∧ b.val ≠ 0x3E ∧ b.val ≠ 0x26) ∧
    ¬ List.IsInfix [0xE2, 0x80, 0xA8] ([0xFF] : GoString) ∧
    ¬ List.IsInfix [0xE2, 0x80, 0xA9] ([0xFF] : GoString) ∧
    (CreateHandler ledgerStub (str "missingkey") [0xFF] testLedger).2.calls
      = [Call.GetState (str "missingkey"),
          Call.PutState (str "missingkey") (str "\x7b\"value\":\"\\ufffd\"\x7d")] ∧
    str "\x7b\"value\":\"\\ufffd\"\x7d" ≠ str "\x7b\"value\":\"" ++ [0xFF] ++ str "\"\x7d" := by
  decide

/-- C8 (amended): `CreateHandler k v` on a vacant key makes exactly one write on the
store, after its read, at key `k`, with the bytes `Marshal` gives for the record; these
bytes are a JSON object with the single member named `value`, in lowercase, holding a
string; and when `v` is valid UTF-8 and holds no byte below `0x20`, no quote, backslash,
`<`, `>` or `&`, and no U+2028 or U+2029, the bytes are exactly the text
`{"value":"` followed by `v` and `"}`. -/
theorem C8_create_wire_format (s : Ledger) (k v : GoString)
    (h : (ledgerStub.GetState k s).1 = (none, none)) :
    (CreateHandler ledgerStub k v s).2.calls
        = s.calls ++ [Call.GetState k, Call.PutState k (Marshal (Handler.mk v))] ∧
    mutations (CreateHandler ledgerStub k v s).2.calls
        = mutations s.calls ++ [Call.PutState k (Marshal (Handler.mk v))] ∧
    parseDocument (Marshal (Handler.mk v))
        = some (JValue.object [(str "value", JValue.string (coerceUTF8 v))]) ∧
    (ValidString v = true →
      (∀ b ∈ v, 0x20 ≤ b.val ∧ b.val ≠ 0x22 ∧ b.val ≠ 0x5C ∧ b.val ≠ 0x3C ∧ b.val ≠ 0x3E
        ∧ b.val ≠ 0x26) →
      ¬ List.IsInfix [0xE2, 0x80, 0xA8] v → ¬ List.IsInfix [0xE2, 0x80, 0xA9] v →
      Marshal (Handler.mk v) = str "\x7b\"value\":\"" ++ v ++ str "\"\x7d") := by
  obtain ⟨hg, hw⟩ := getState_ok h
  rw [CreateHandler_ledger_vacant v hg hw]
  have hc : (ledgerStub.PutState k (Marshal (Handler.mk v))
      (s.record (Call.GetState k) s.world)).2.calls
      = s.calls ++ [Call.GetState k, Call.PutState k (Marshal (Handler.mk v))] := by
    simp only [ledgerStub]
    cases (s.record (Call.GetState k) s.world).putErr k (Marshal (Handler.mk v)) <;>
      simp [Ledger.record]
  refine ⟨hc, ?_, ?_, ?_⟩
  · rw [hc]
    simp [mutations, List.filter_append]
  · unfold parseDocument
    have hl : 2 * (Marshal (Handler.mk v)).length + 1
        = (2 * (Marshal (Handler.mk v)).length - 2) + 3 := by
      rw [Marshal_eq]; simp
    rw [hl, parseValue_Marshal]
    simp [skipSpace]
  · intro hv hp h28 h29
    rw [Marshal_eq, appendStringLoop_plain v.length v (Nat.le_refl _) hv hp h28 h29]
    have h1 : str "\x7b\"value\":\"" = [0x7B, 0x22, 0x76, 0x61, 0x6C, 0x75, 0x65, 0x22, 0x3A, 0x22] := by
      decide
    have h2 : str "\"\x7d" = [0x22, 0x7D] := by decide
    rw [h1, h2]
    simp

/-- C8 (amended), witness: `CreateHandler` on `missingkey` with `some value` in the test
world state writes exactly the bytes `{"value":"some value"}`. -/
theorem C8_create_wire_format_witness :
    (ledgerStub.GetState (str "missingkey") testLedger).1 = (none, none) ∧
    (CreateHandler ledgerStub (str "missingkey") (str "some value") testLedger).2.calls
      = testLedger.calls ++ [Call.GetState (str "missingkey"),
          Call.PutState (str "missingkey") (Marshal (Handler.mk (str "some value")))] ∧
    Marshal (Handler.mk (str "some value"))
      = str "\x7b\"value\":\"" ++ str "some value" ++ str "\"\x7d" :=
  ⟨by decide,
    (C8_create_wire_format testLedger (str "missingkey") (str "some value") (by decide)).1,
    (C8_create_wire_format testLedger (str "missingkey") (str "some value") (by decide)).2.2.2
      (by decide) (by decide) (by decide) (by decide)⟩

/-- C10: starting from the empty store, under any refusals of the host, and after any
finite sequence of contract invocations, `HandlerExists k` returns true with no error
if and only if the sequence contains a successful `CreateHandler` on `k` after which no
`DeleteHandler` on `k` succeeded; in particular it returns false for every `k` on which
no `CreateHandler` ever succeeded. -/
theorem C10_existence_invariant (getErr : GoString → Option GoError)
    (putErr : GoString → List Byte → Option GoError) (delErr : GoString → Option GoError)
    (ops : List Op) (k : GoString) :
    ((HandlerExists ledgerStub k
        (runAll ledgerStub ops (emptyLedger getErr putErr delErr)).2).1 = (true, none)
      ↔ ∃ pre post v,
          (runAll ledgerStub ops (emptyLedger getErr putErr delErr)).1
            = pre ++ (Op.Create k v, none) :: post
          ∧ ∀ e ∈ post, e ≠ (Op.Delete k, none)) ∧
    ((∀ v, (Op.Create k v, none) ∉ (runAll ledgerStub ops (emptyLedger getErr putErr delErr)).1) →
      (HandlerExists ledgerStub k
        (runAll ledgerStub ops (emptyLedger getErr putErr delErr)).2).1.1 = false) := by
  have hmain := runAll_holds k ops (emptyLedger getErr putErr delErr)
  have hempty : ¬ (emptyLedger getErr putErr delErr).holds k := by
    simp [Ledger.holds, emptyLedger]
  have hiff : (HandlerExists ledgerStub k
        (runAll ledgerStub ops (emptyLedger getErr putErr delErr)).2).1 = (true, none)
      ↔ keptCreate k (runAll ledgerStub ops (emptyLedger getErr putErr delErr)).1 := by
    rw [HandlerExists_ledger_true]
    exact hmain.trans (by simp [hempty])
  refine ⟨hiff, ?_⟩
  intro hnone
  have hnot : ¬ keptCreate k (runAll ledgerStub ops (emptyLedger getErr putErr delErr)).1 := by
    rintro ⟨pre, post, v, heq, -⟩
    exact hnone v (by rw [heq]; simp)
  have hne := mt hiff.mp hnot
  cases hg : (runAll ledgerStub ops (emptyLedger getErr putErr delErr)).2.getErr k with
  | some e => rw [HandlerExists_ledger_err hg]
  | none =>
    rw [HandlerExists_ledger_ok hg] at hne ⊢
    cases hw : ((runAll ledgerStub ops (emptyLedger getErr putErr delErr)).2.world k) with
    | none => rfl
    | some d => rw [hw] at hne; simp at hne

/-- C10, instance: after creating `a`, deleting `a` and creating `b` in the empty store
of a host that refuses nothing, `b` exists and `a` does not. -/
theorem C10_existence_invariant_witness :
    (HandlerExists ledgerStub (str "b")
      (runAll ledgerStub
        [Op.Create (str "a") (str "x"), Op.Delete (str "a"), Op.Create (str "b") (str "y")]
        (emptyLedger noErr noPutErr noErr)).2).1 = (true, none) ∧
    ¬ (HandlerExists ledgerStub (str "a")
      (runAll ledgerStub
        [Op.Create (str "a") (str "x"), Op.Delete (str "a"), Op.Create (str "b") (str "y")]
        (emptyLedger noErr noPutErr noErr)).2).1 = (true, none) :=
  ⟨(C10_existence_invariant noErr noPutErr noErr
      [Op.Create (str "a") (str "x"), Op.Delete (str "a"), Op.Create (str "b") (str "y")]
      (str "b")).1.mpr
      ⟨[(Op.Create (str "a") (str "x"), none), (Op.Delete (str "a"), none)], [], str "y",
        by decide, by simp⟩,
    by decide⟩

/-- C11: `HandlerExists k` and `ReadHandler k` only read. Over any stub the state they
leave is the state left by one read of `k`, or for `ReadHandler` by two; on the
key-value ledger, whatever they return, the calls they add are reads of `k` only, no
write and no delete, and the world state and the refusals of the host after the call
are those before it. -/
theorem C11_observers {σ : Type} (stub : ChaincodeStub σ) (t : σ) (s : Ledger)
    (k : GoString) :
    ((HandlerExists stub k t).2 = (stub.GetState k t).2 ∧
      ((ReadHandler stub k t).2 = (stub.GetState k t).2 ∨
        (ReadHandler stub k t).2 = (stub.GetState k (stub.GetState k t).2).2)) ∧
    ((HandlerExists ledgerStub k s).2.world = s.world ∧
      (HandlerExists ledgerStub k s).2.getErr = s.getErr ∧
      (HandlerExists ledgerStub k s).2.putErr = s.putErr ∧
      (HandlerExists ledgerStub k s).2.delErr = s.delErr ∧
      mutations (HandlerExists ledgerStub k s).2.calls = mutations s.calls ∧
      (HandlerExists ledgerStub k s).2.calls = s.calls ++ [Call.GetState k]) ∧
    ((ReadHandler ledgerStub k s).2.world = s.world ∧
      (ReadHandler ledgerStub k s).2.getErr = s.getErr ∧
      (ReadHandler ledgerStub k s).2.putErr = s.putErr ∧
      (ReadHandler ledgerStub k s).2.delErr = s.delErr ∧
      mutations (ReadHandler ledgerStub k s).2.calls = mutations s.calls ∧
      ((ReadHandler ledgerStub k s).2.calls = s.calls ++ [Call.GetState k] ∨
        (ReadHandler ledgerStub k s).2.calls
          = s.calls ++ [Call.GetState k, Call.GetState k])) := by
  refine ⟨⟨?_, ?_⟩, ?_, ?_⟩
  · unfold HandlerExists
    rcases hr : stub.GetState k t with ⟨⟨d, err⟩, s1⟩
    cases err <;> simp
  · unfold ReadHandler HandlerExists
    rcases hr : stub.GetState k t with ⟨⟨d, err⟩, s1⟩
    cases err with
    | some e => left; simp
    | none =>
      cases d with
      | none => left; simp
      | some d =>
        right
        simp only [Option.isSome_some, Bool.not_true, Bool.false_eq_true, if_false]
        split_ifs <;> rfl
  · cases hg : s.getErr k with
    | some e =>
      rw [HandlerExists_ledger_err hg]
      exact ⟨rfl, rfl, rfl, rfl, mutations_record_get s k _, rfl⟩
    | none =>
      rw [HandlerExists_ledger_ok hg]
      exact ⟨rfl, rfl, rfl, rfl, mutations_record_get s k _, rfl⟩
  · cases hg : s.getErr k with
    | some e =>
      rw [ReadHandler_ledger_err hg]
      exact ⟨rfl, rfl, rfl, rfl, mutations_record_get s k _, Or.inl rfl⟩
    | none =>
      cases hw : s.world k with
      | none =>
        rw [ReadHandler_ledger_vacant hg hw]
        exact ⟨rfl, rfl, rfl, rfl, mutations_record_get s k _, Or.inl rfl⟩
      | some d =>
        rw [ReadHandler_ledger_present hg hw]
        refine ⟨rfl, rfl, rfl, rfl, ?_, Or.inr ?_⟩
        · rw [mutations_record_get, mutations_record_get]
        · simp [Ledger.record]

/-- C11, instance: reading `handlerkey` of the test world state makes two reads and
leaves the world state as it is; checking `statebad` makes one. -/
theorem C11_observers_witness :
    (ReadHandler ledgerStub (str "handlerkey") testLedger).2.world = testLedger.world ∧
    (ReadHandler ledgerStub (str "handlerkey") testLedger).2.calls
      = [Call.GetState (str "handlerkey"), Call.GetState (str "handlerkey")] ∧
    (HandlerExists ledgerStub (str "statebad") testLedger).2.calls
      = testLedger.calls ++ [Call.GetState (str "statebad")] :=
  ⟨(C11_observers ledgerStub testLedger testLedger (str "handlerkey")).2.2.1,
    by decide,
    (C11_observers ledgerStub testLedger testLedger (str "statebad")).2.1.2.2.2.2.2⟩

/-- C12: `UpdateHandler k v` on a key that holds any bytes `d` makes exactly one write
on the store, after its read, at key `k`, and the bytes written are the encoding of
the record with value `v`, whatever `d` is: the very bytes that `CreateHandler k1 v`
writes at a vacant key `k1` of any store. -/
theorem C12_update_overwrites (s : Ledger) (k v : GoString) (d : List Byte)
    (h : (ledgerStub.GetState k s).1 = (some d, none)) :
    (UpdateHandler ledgerStub k v s).2.calls
        = s.calls ++ [Call.GetState k, Call.PutState k (Marshal (Handler.mk v))] ∧
    mutations (UpdateHandler ledgerStub k v s).2.calls
        = mutations s.calls ++ [Call.PutState k (Marshal (Handler.mk v))] ∧
    (∀ (s1 : Ledger) (k1 : GoString), (ledgerStub.GetState k1 s1).1 = (none, none) →
      mutations (CreateHandler ledgerStub k1 v s1).2.calls
        = mutations s1.calls ++ [Call.PutState k1 (Marshal (Handler.mk v))]) ∧
    ((UpdateHandler ledgerStub k v s).1 = none →
      (ledgerStub.GetState k (UpdateHandler ledgerStub k v s).2).1
        = (some (Marshal (Handler.mk v)), none)) := by
  obtain ⟨hg, hw⟩ := getState_ok h
  have hput : ∀ (s2 : Ledger) (k2 : GoString),
      (ledgerStub.PutState k2 (Marshal (Handler.mk v)) (s2.record (Call.GetState k2) s2.world)).2.calls
        = s2.calls ++ [Call.GetState k2, Call.PutState k2 (Marshal (Handler.mk v))] := by
    intro s2 k2
    simp only [ledgerStub]
    cases (s2.record (Call.GetState k2) s2.world).putErr k2 (Marshal (Handler.mk v)) <;>
      simp [Ledger.record]
  rw [UpdateHandler_ledger_present v hg hw]
  refine ⟨hput s k, ?_, ?_, ?_⟩
  · rw [hput]
    simp [mutations, List.filter_append]
  · intro s1 k1 h1
    obtain ⟨hg1, hw1⟩ := getState_ok h1
    rw [CreateHandler_ledger_vacant v hg1 hw1, hput]
    simp [mutations, List.filter_append]
  · intro hok
    rw [PutState_ledger_ok hok, GetState_ledger_fst]
    simp [Ledger.record, Ledger.set, hg]

/-- C12, witness: updating `handlerkey` of the test world state to `new value` writes
the bytes `{"value":"new value"}` at `handlerkey`. -/
theorem C12_update_overwrites_witness :
    (ledgerStub.GetState (str "handlerkey") testLedger).1
      = (some (Marshal (Handler.mk (str "set value"))), none) ∧
    (UpdateHandler ledgerStub (str "handlerkey") (str "new value") testLedger).2.calls
      = testLedger.calls ++ [Call.GetState (str "handlerkey"),
          Call.PutState (str "handlerkey") (Marshal (Handler.mk (str "new value")))] ∧
    Marshal (Handler.mk (str "new value")) = str "\x7b\"value\":\"new value\"\x7d" :=
  ⟨by decide,
    (C12_update_overwrites testLedger (str "handlerkey") (str "new value")
      (Marshal (Handler.mk (str "set value"))) (by decide)).1,
    by decide⟩

/-- C13: an operation invoked on `k`, whatever it returns, leaves every other key as it
was: for `k1` different from `k`, the store read of `k1` answers the same after
`HandlerExists`, `CreateHandler`, `ReadHandler`, `UpdateHandler` or `DeleteHandler` on
`k` as before it. -/
theorem C13_key_isolation (s : Ledger) (k k1 v : GoString) (hne : k ≠ k1) :
    (ledgerStub.GetState k1 (HandlerExists ledgerStub k s).2).1
        = (ledgerStub.GetState k1 s).1 ∧
    (ledgerStub.GetState k1 (CreateHandler ledgerStub k v s).2).1
        = (ledgerStub.GetState k1 s).1 ∧
    (ledgerStub.GetState k1 (ReadHandler ledgerStub k s).2).1
        = (ledgerStub.GetState k1 s).1 ∧
    (ledgerStub.GetState k1 (UpdateHandler ledgerStub k v s).2).1
        = (ledgerStub.GetState k1 s).1 ∧
    (ledgerStub.GetState k1 (DeleteHandler ledgerStub k s).2).1
        = (ledgerStub.GetState k1 s).1 := by
  refine ⟨?_, ?_, ?_, ?_, ?_⟩
  · obtain ⟨hw, hg⟩ := HandlerExists_ledger_frame s k
    exact GetState_ledger_congr k1 (by rw [hw]) hg
  · rcases CreateHandler_ledger_cases s k v with ⟨-, hw, hg⟩ | ⟨-, -, -, hw, hg⟩
    · exact GetState_ledger_congr k1 (by rw [hw]) hg
    · exact GetState_ledger_congr k1 (by rw [hw, Ledger.set_ne s _ hne]) hg
  · obtain ⟨hw, hg⟩ := ReadHandler_ledger_frame s k
    exact GetState_ledger_congr k1 (by rw [hw]) hg
  · rcases UpdateHandler_ledger_cases s k v with ⟨-, hw, hg⟩ | ⟨-, -, -, hw, hg⟩
    · exact GetState_ledger_congr k1 (by rw [hw]) hg
    · exact GetState_ledger_congr k1 (by rw [hw, Ledger.set_ne s _ hne]) hg
  · rcases DeleteHandler_ledger_cases s k with ⟨-, hw, hg⟩ | ⟨-, -, -, hw, hg⟩
    · exact GetState_ledger_congr k1 (by rw [hw]) hg
    · exact GetState_ledger_congr k1 (by rw [hw, Ledger.set_ne s _ hne]) hg

/-- C13, witness: deleting `handlerkey` of the test world state leaves `existingkey`
holding `some value`, and leaves the read of `statebad` failing. -/
theorem C13_key_isolation_witness :
    str "handlerkey" ≠ str "existingkey" ∧
    (DeleteHandler ledgerStub (str "handlerkey") testLedger).1 = none ∧
    (ledgerStub.GetState (str "existingkey")
      (DeleteHandler ledgerStub (str "handlerkey") testLedger).2).1
      = (ledgerStub.GetState (str "existingkey") testLedger).1 ∧
    (ledgerStub.GetState (str "existingkey") testLedger).1 = (some (str "some value"), none) :=
  ⟨by decide, by decide,
    (C13_key_isolation testLedger (str "handlerkey") (str "existingkey") (str "x")
      (by decide)).2.2.2.2,
    by decide⟩

/-- C14 (as stated, refuted): after `CreateHandler` on `k` with the one-byte value
`0xFF` in the empty store, that value is the one passed to the last successful create
or update on `k`, yet `ReadHandler k` returns the record whose value is the encoding of
U+FFFD: neither `NotFound` nor the record with the value passed. -/
theorem C14_counterexample :
    lastWritten (str "k")
      (runAll ledgerStub [Op.Create (str "k") [0xFF]] (emptyLedger noErr noPutErr noErr)).1
      = some [0xFF] ∧
    (ReadHandler ledgerStub (str "k")
      (runAll ledgerStub [Op.Create (str "k") [0xFF]] (emptyLedger noErr noPutErr noErr)).2).1
      = (some (Handler.mk [0xEF, 0xBF, 0xBD]), none) ∧
    (ReadHandler ledgerStub (str "k")
      (runAll ledgerStub [Op.Create (str "k") [0xFF]] (emptyLedger noErr noPutErr noErr)).2).1
      ≠ (some (Handler.mk [0xFF]), none) ∧
    (ReadHandler ledgerStub (str "k")
      (runAll ledgerStub [Op.Create (str "k") [0xFF]] (emptyLedger noErr noPutErr noErr)).2).1
      ≠ (none, some (notFoundError (str "k"))) := by
  decide

/-- C14 (amended): in every store reached from the empty store, in which every key is
vacant and readable, by a finite sequence of contract invocations, whatever writes and
deletes the host refuses, the bytes held by any key decode to a record, so
`ReadHandler k` never fails with `DecodeFailure`: it fails with `The asset k does not
exist` when no create or update on `k` has succeeded since the last successful delete
on `k`, and otherwise returns the record whose `Value` is the value passed to the last
successful `CreateHandler` or `UpdateHandler` on `k`, coerced to well-formed UTF-8,
which is exactly that value when it is valid UTF-8. -/
theorem C14_written_stores_decode (putErr : GoString → List Byte → Option GoError)
    (delErr : GoString → Option GoError) (ops : List Op) (k : GoString) :
    (∀ d, (ledgerStub.GetState k
        (runAll ledgerStub ops (emptyLedger noErr putErr delErr)).2).1 = (some d, none) →
      (Unmarshal d (Handler.mk [])).2 = false) ∧
    (ReadHandler ledgerStub k (runAll ledgerStub ops (emptyLedger noErr putErr delErr)).2).1
      ≠ (none, some (GoError.mk
          (str "Could not unmarshal world state data to type Handler"))) ∧
    (ReadHandler ledgerStub k (runAll ledgerStub ops (emptyLedger noErr putErr delErr)).2).1
      = (match lastWritten k (runAll ledgerStub ops (emptyLedger noErr putErr delErr)).1 with
        | none => (none, some (GoError.mk (str "The asset " ++ k ++ str " does not exist")))
        | some v => (some (Handler.mk (coerceUTF8 v)), none)) ∧
    (∀ v, lastWritten k (runAll ledgerStub ops (emptyLedger noErr putErr delErr)).1 = some v →
      ValidString v = true →
      (ReadHandler ledgerStub k
        (runAll ledgerStub ops (emptyLedger noErr putErr delErr)).2).1
        = (some (Handler.mk v), none)) := by
  obtain ⟨hw, hg⟩ := runAll_written k ops (emptyLedger noErr putErr delErr) none rfl
  have hg1 : (runAll ledgerStub ops (emptyLedger noErr putErr delErr)).2.getErr k = none := by
    rw [hg]; rfl
  have hw1 : (runAll ledgerStub ops (emptyLedger noErr putErr delErr)).2.world k
      = (lastWritten k (runAll ledgerStub ops (emptyLedger noErr putErr delErr)).1).map
          (fun v => Marshal (Handler.mk v)) := hw
  have hread : (ReadHandler ledgerStub k
        (runAll ledgerStub ops (emptyLedger noErr putErr delErr)).2).1
      = (match lastWritten k (runAll ledgerStub ops (emptyLedger noErr putErr delErr)).1 with
        | none => (none, some (GoError.mk (str "The asset " ++ k ++ str " does not exist")))
        | some v => (some (Handler.mk (coerceUTF8 v)), none)) := by
    cases hl : lastWritten k (runAll ledgerStub ops (emptyLedger noErr putErr delErr)).1 with
    | none =>
      rw [hl] at hw1
      rw [ReadHandler_ledger_vacant hg1 hw1]
      rfl
    | some v =>
      rw [hl] at hw1
      rw [ReadHandler_ledger_present hg1 hw1, Unmarshal_Marshal]
      simp
  refine ⟨?_, ?_, hread, ?_⟩
  · intro d hd
    obtain ⟨-, hwd⟩ := getState_ok hd
    rw [hw1] at hwd
    cases hl : lastWritten k (runAll ledgerStub ops (emptyLedger noErr putErr delErr)).1 with
    | none => rw [hl] at hwd; simp at hwd
    | some v =>
      rw [hl] at hwd
      simp only [Option.map_some', Option.some.injEq] at hwd
      rw [← hwd, Unmarshal_Marshal]
  · rw [hread]
    cases lastWritten k (runAll ledgerStub ops (emptyLedger noErr putErr delErr)).1 with
    | none =>
      simp only [ne_eq, Prod.mk.injEq, true_and, Option.some.injEq]
      exact notFoundError_ne_unmarshalError k
    | some v => simp
  · intro v hl hv
    rw [hread, hl]
    simp only []
    rw [coerceUTF8_of_valid v hv]

/-- C14 (amended), instance: after creating `a` with `x`, updating it to `y`, creating
`b` and deleting `b` in the empty store of a host that refuses nothing, reading `a`
returns the record with value `y` and reading `b` fails with `NotFound`. -/
theorem C14_written_stores_decode_witness :
    (ReadHandler ledgerStub (str "a")
      (runAll ledgerStub
        [Op.Create (str "a") (str "x"), Op.Update (str "a") (str "y"),
          Op.Create (str "b") (str "z"), Op.Delete (str "b")]
        (emptyLedger noErr noPutErr noErr)).2).1 = (some (Handler.mk (str "y")), none) ∧
    (ReadHandler ledgerStub (str "b")
      (runAll ledgerStub
        [Op.Create (str "a") (str "x"), Op.Update (str "a") (str "y"),
          Op.Create (str "b") (str "z"), Op.Delete (str "b")]
        (emptyLedger noErr noPutErr noErr)).2).1
      = (none, some (GoError.mk (str "The asset " ++ str "b" ++ str " does not exist"))) :=
  ⟨(C14_written_stores_decode noPutErr noErr
      [Op.Create (str "a") (str "x"), Op.Update (str "a") (str "y"),
        Op.Create (str "b") (str "z"), Op.Delete (str "b")] (str "a")).2.2.2
      (str "y") (by decide) (by decide),
    by decide⟩

/-- C15: over any stub, once the existence check has passed, the operation is its one
write or delete: `CreateHandler` on a key found vacant, and `UpdateHandler` on a key
found present, return exactly what `PutState` of the encoded record returns, and
`DeleteHandler` on a key found present returns exactly what `DelState` returns. So an
error `e` of the write or delete is returned as it is, and the operation returns no
error exactly when the write or delete returns none. -/
theorem C15_write_failure_propagates {σ : Type} (stub : ChaincodeStub σ) (k v : GoString)
    (s : σ) :
    ((HandlerExists stub k s).1 = (false, none) →
      CreateHandler stub k v s
        = stub.PutState k (Marshal (Handler.mk v)) (HandlerExists stub k s).2 ∧
      (∀ e, (stub.PutState k (Marshal (Handler.mk v)) (HandlerExists stub k s).2).1 = some e →
        (CreateHandler stub k v s).1 = some e) ∧
      ((CreateHandler stub k v s).1 = none ↔
        (stub.PutState k (Marshal (Handler.mk v)) (HandlerExists stub k s).2).1 = none)) ∧
    ((HandlerExists stub k s).1 = (true, none) →
      UpdateHandler stub k v s
        = stub.PutState k (Marshal (Handler.mk v)) (HandlerExists stub k s).2 ∧
      (∀ e, (stub.PutState k (Marshal (Handler.mk v)) (HandlerExists stub k s).2).1 = some e →
        (UpdateHandler stub k v s).1 = some e) ∧
      ((UpdateHandler stub k v s).1 = none ↔
        (stub.PutState k (Marshal (Handler.mk v)) (HandlerExists stub k s).2).1 = none)) ∧
    ((HandlerExists stub k s).1 = (true, none) →
      DeleteHandler stub k s = stub.DelState k (HandlerExists stub k s).2 ∧
      (∀ e, (stub.DelState k (HandlerExists stub k s).2).1 = some e →
        (DeleteHandler stub k s).1 = some e) ∧
      ((DeleteHandler stub k s).1 = none ↔
        (stub.DelState k (HandlerExists stub k s).2).1 = none)) := by
  refine ⟨?_, ?_, ?_⟩
  · intro h
    have hc : CreateHandler stub k v s
        = stub.PutState k (Marshal (Handler.mk v)) (HandlerExists stub k s).2 := by
      simp only [CreateHandler, h]
      simp
    rw [hc]
    exact ⟨rfl, fun e he => he, Iff.rfl⟩
  · intro h
    have hc : UpdateHandler stub k v s
        = stub.PutState k (Marshal (Handler.mk v)) (HandlerExists stub k s).2 := by
      simp only [UpdateHandler, h]
      simp
    rw [hc]
    exact ⟨rfl, fun e he => he, Iff.rfl⟩
  · intro h
    have hc : DeleteHandler stub k s = stub.DelState k (HandlerExists stub k s).2 := by
      simp only [DeleteHandler, h]
      simp
    rw [hc]
    exact ⟨rfl, fun e he => he, Iff.rfl⟩

/-- C15, instance: under a host that refuses every write and delete, creating
`missingkey`, updating `handlerkey` and deleting `handlerkey` of the test world state
return the errors of the host as they are, with their own messages. -/
theorem C15_write_failure_propagates_witness :
    (CreateHandler ledgerStub (str "missingkey") (str "some value") refusingLedger).1
      = some (GoError.mk (str "world state put error")) ∧
    (UpdateHandler ledgerStub (str "handlerkey") (str "new value") refusingLedger).1
      = some (GoError.mk (str "world state put error")) ∧
    (DeleteHandler ledgerStub (str "handlerkey") refusingLedger).1
      = some (GoError.mk (str "world state delete error")) :=
  ⟨((C15_write_failure_propagates ledgerStub (str "missingkey") (str "some value")
      refusingLedger).1 (by decide)).2.1 _ (by decide),
    ((C15_write_failure_propagates ledgerStub (str "handlerkey") (str "new value")
      refusingLedger).2.1 (by decide)).2.1 _ (by decide),
    ((C15_write_failure_propagates ledgerStub (str "handlerkey") (str "new value")
      refusingLedger).2.2 (by decide)).2.1 _ (by decide)⟩

/-- C16: over any stub on which the second read of `k` in the invocation answers what
the first read answered, `ReadHandler k` returns what the single-read reference
returns (the wrapped error when the read fails, `NotFound` when it yields nil,
`DecodeFailure` when the bytes do not decode, the decoded record otherwise), and the
second read, whenever it is made, returns no error, so no error is discarded. -/
theorem C16_double_read_is_single_read {σ : Type} (stub : ChaincodeStub σ) (k : GoString)
    (s : σ)
    (hrep : (stub.GetState k (stub.GetState k s).2).1 = (stub.GetState k s).1) :
    (ReadHandler stub k s).1 = ReadHandlerSingle stub k s ∧
    ((HandlerExists stub k s).1 = (true, none) →
      (stub.GetState k (HandlerExists stub k s).2).1.2 = none) := by
  unfold ReadHandler ReadHandlerSingle HandlerExists
  rcases hr : stub.GetState k s with ⟨⟨d, err⟩, s1⟩
  rw [hr] at hrep
  simp only [] at hrep
  cases err with
  | some e => simp
  | none =>
    cases d with
    | none => simp
    | some d =>
      simp only [Option.isSome_some, Bool.not_true, Bool.false_eq_true, if_false, hrep,
        Option.getD_some, forall_const, and_true]
      split_ifs <;> rfl

/-- C16, witness: on the key-value ledger reads are repeatable; reading `handlerkey` of
the test world state gives the record with value `set value`, as the single read
does. -/
theorem C16_double_read_is_single_read_witness :
    (ledgerStub.GetState (str "handlerkey")
        (ledgerStub.GetState (str "handlerkey") testLedger).2).1
      = (ledgerStub.GetState (str "handlerkey") testLedger).1 ∧
    (ReadHandler ledgerStub (str "handlerkey") testLedger).1
      = ReadHandlerSingle ledgerStub (str "handlerkey") testLedger ∧
    ReadHandlerSingle ledgerStub (str "handlerkey") testLedger
      = (some (Handler.mk (str "set value")), none) :=
  ⟨by decide,
    (C16_double_read_is_single_read ledgerStub (str "handlerkey") testLedger (by decide)).1,
    by decide⟩

end HandlerContract
